import Mathlib

/-!
Shallow embedding of the core of the "infinity-stones" search engine
(sources: `advanced_search_features.py`, `advanced_caching.py`,
`infinity_search_engine.py`) together with theorems settling the
specification claims about it.

Python strings are modelled as Lean `String` / `List Char`; Python floats
are modelled as `ℚ` (all the float arithmetic in the sources is plain
field arithmetic and comparisons); Python dicts are modelled as
association lists in insertion order, mirroring `dict` / `OrderedDict`
iteration order; code that raises is modelled with `Option` / `Except`.
-/

namespace Spec2Proof

/-! ### Generic string helpers shared by several components -/

/-- Python `str.lower()` (ASCII case folding, which is all the data uses). -/
def lowerStr (s : String) : String := ⟨s.data.map Char.toLower⟩

/-- Python `str.upper()` on a single character. -/
def upperStr (s : String) : String := ⟨s.data.map Char.toUpper⟩

/-- Python `needle in hay` substring containment on character lists. -/
def containsSub (hay needle : List Char) : Bool :=
  (List.range (hay.length + 1)).any (fun i => needle.isPrefixOf (hay.drop i))

/-- Helper for `pySplit`: accumulates the current (reversed) run of
non-whitespace characters. -/
def pySplitAux : List Char → List Char → List (List Char)
  | [], cur => if cur = [] then [] else [cur.reverse]
  | c :: cs, cur =>
    if c.isWhitespace then
      if cur = [] then pySplitAux cs [] else cur.reverse :: pySplitAux cs []
    else pySplitAux cs (c :: cur)

/-- Python `str.split()` with no argument: split on whitespace runs,
dropping empty pieces. -/
def pySplit (s : String) : List String :=
  (pySplitAux s.data []).map (fun w => ⟨w⟩)

/-- Python `str.strip()` with no argument: drop leading and trailing
whitespace. -/
def pyStrip (s : String) : String :=
  ⟨((s.data.dropWhile Char.isWhitespace).reverse.dropWhile Char.isWhitespace).reverse⟩

/-- A character matched by the regex class `\w` (over the ASCII data the
engine indexes): alphanumeric or underscore. -/
def isWordChar (c : Char) : Bool := c.isAlphanum || c = '_'

/-- Python dict assignment `d[key] = v` on an insertion-ordered
association list: update in place if present, else append. -/
def setKey {A : Type} (l : List (String × A)) (key : String) (v : A) :
    List (String × A) :=
  if l.any (fun p => p.1 = key) then
    l.map (fun p => if p.1 = key then (key, v) else p)
  else l ++ [(key, v)]

/-- Helper for `wordTokens`: accumulates the current (reversed) run of
word characters. -/
def wordTokensAux : List Char → List Char → List (List Char)
  | [], cur => if cur = [] then [] else [cur.reverse]
  | c :: cs, cur =>
    if isWordChar c then wordTokensAux cs (c :: cur)
    else if cur = [] then wordTokensAux cs [] else cur.reverse :: wordTokensAux cs []

/-- Python `re.findall(r'\b\w+\b', s)`: the maximal runs of word
characters of `s`. -/
def wordTokens (s : String) : List String :=
  (wordTokensAux s.data []).map (fun w => ⟨w⟩)

/-! ### Boolean expression trees and their evaluator
(`BooleanSearchEngine` in `advanced_search_features.py`) -/

/-- The parsed boolean query trees built by
`BooleanSearchEngine._parse_expression`: the Python code uses dicts
tagged `'term' | 'and' | 'or' | 'not' | 'empty'`. -/
inductive BoolExpr where
  | term (value : String)
  | and (left right : BoolExpr)
  | or (left right : BoolExpr)
  | not (operand : BoolExpr)
  | empty
deriving DecidableEq

/-- `product_matches.get(term, set())` — dict lookup with empty-set
default (`evaluate_boolean_expression`, the `'term'` branch). -/
def dictGet (m : List (String × Finset String)) (k : String) : Finset String :=
  match m.find? (fun p => p.1 = k) with
  | some p => p.2
  | none => ∅

/-- The `'not'` branch of `evaluate_boolean_expression` first unions all
id sets appearing as values of `product_matches`. -/
def allProducts (m : List (String × Finset String)) : Finset String :=
  (m.map Prod.snd).foldl (fun acc s => acc ∪ s) ∅

/-- `BooleanSearchEngine.evaluate_boolean_expression`
(`advanced_search_features.py`, lines 277–311). -/
def evaluate_boolean_expression (e : BoolExpr) (m : List (String × Finset String)) :
    Finset String :=
  match e with
  | .term v => dictGet m v
  | .and l r => evaluate_boolean_expression l m ∩ evaluate_boolean_expression r m
  | .or l r => evaluate_boolean_expression l m ∪ evaluate_boolean_expression r m
  | .not o => allProducts m \ evaluate_boolean_expression o m
  | .empty => ∅

/-! ### The LRU cache (`LRUCache` in `advanced_caching.py`)

Wall-clock values returned by `time.time()` are passed in explicitly as
`now : Int`; an operation is given one `now` for all the clock reads it
performs.  The `OrderedDict` is an association list whose head is the
oldest (least recently used) entry, exactly as `next(iter(self.cache))`
reads it; `self.access_times` is a second association list. -/

structure LRUCache (V : Type) where
  max_size : Nat
  ttl : Int
  cache : List (String × V)
  access_times : List (String × Int)
  hits : Nat
  misses : Nat
  evictions : Nat
deriving DecidableEq

namespace LRUCache

variable {V : Type}

/-- A fresh cache as built by `LRUCache.__init__`. -/
def init (V : Type) (max_size : Nat) (ttl : Int) : LRUCache V :=
  ⟨max_size, ttl, [], [], 0, 0, 0⟩

/-- `key in self.cache`. -/
def hasKey (s : LRUCache V) (key : String) : Bool :=
  s.cache.any (fun p => p.1 = key)

/-- `self.access_times[key]` (total with default `0`; the code only reads
times of keys present in the cache, whose time is always recorded). -/
def timeOf (s : LRUCache V) (key : String) : Int :=
  match s.access_times.find? (fun p => p.1 = key) with
  | some p => p.2
  | none => 0

/-- `LRUCache._remove` (lines 78–82): delete the key from both maps. -/
def remove (s : LRUCache V) (key : String) : LRUCache V :=
  { s with
    cache := s.cache.filter (fun p => p.1 ≠ key),
    access_times := s.access_times.filter (fun p => p.1 ≠ key) }

/-- `LRUCache.get` (lines 37–55): returns the looked-up value and the
state after the call. -/
def get (s : LRUCache V) (now : Int) (key : String) : Option V × LRUCache V :=
  match s.cache.find? (fun p => p.1 = key) with
  | some entry =>
    if now - s.timeOf key > s.ttl then
      (none, { s.remove key with misses := s.misses + 1 })
    else
      (some entry.2,
        { s with
          cache := s.cache.filter (fun p => p.1 ≠ key) ++ [(key, entry.2)],
          access_times := setKey s.access_times key now,
          hits := s.hits + 1 })
  | none => (none, { s with misses := s.misses + 1 })

/-- `LRUCache.put` (lines 57–76).  Returns `none` when the Python code
raises: a fresh key is inserted at capacity with an *empty* cache
(`next(iter(self.cache))` raises `StopIteration`), which can only happen
when `max_size = 0`. -/
def put (s : LRUCache V) (now : Int) (key : String) (value : V) :
    Option (LRUCache V) :=
  if s.hasKey key then
    some { s with
      cache := s.cache.filter (fun p => p.1 ≠ key) ++ [(key, value)],
      access_times := setKey s.access_times key now }
  else if s.cache.length ≥ s.max_size then
    match s.cache with
    | [] => none
    | oldest :: _ =>
      let s' := s.remove oldest.1
      some { s' with
        evictions := s'.evictions + 1,
        cache := s'.cache ++ [(key, value)],
        access_times := setKey s'.access_times key now }
  else
    some { s with
      cache := s.cache ++ [(key, value)],
      access_times := setKey s.access_times key now }

/-- `LRUCache.cleanup_expired` (lines 109–121): drops every entry past
its TTL and returns how many were dropped. -/
def cleanup_expired (s : LRUCache V) (now : Int) : Nat × LRUCache V :=
  let expired := (s.access_times.filter (fun p => now - p.2 > s.ttl)).map Prod.fst
  (expired.length,
    { s with
      cache := s.cache.filter (fun p => ¬ expired.contains p.1),
      access_times := s.access_times.filter (fun p => ¬ expired.contains p.1) })

/-- One cache operation, tagged with the `time.time()` value observed
while it runs. -/
inductive Op (V : Type) where
  | get (now : Int) (key : String)
  | put (now : Int) (key : String) (value : V)
  | cleanup (now : Int)

/-- The state after one operation.  A `put` that raises (capacity-zero
corner) mutates nothing before raising, so the state is unchanged. -/
def step (op : Op V) (s : LRUCache V) : LRUCache V :=
  match op with
  | .get now key => (s.get now key).2
  | .put now key value => (s.put now key value).getD s
  | .cleanup now => (s.cleanup_expired now).2

/-- The state after a sequence of operations. -/
def runOps (ops : List (Op V)) (s : LRUCache V) : LRUCache V :=
  ops.foldl (fun s op => step op s) s

/-- Structural well-formedness maintained by every operation: stored keys
are distinct (they model dict keys) and the size bound holds. -/
def WF (s : LRUCache V) : Prop :=
  (s.cache.map Prod.fst).Nodup ∧ s.cache.length ≤ s.max_size

/-- The `OrderedDict` order coincides with recency order: the recorded
last-access times are nondecreasing from front (least recently used) to
back (most recently used). -/
def recencyOrdered (s : LRUCache V) : Prop :=
  (s.cache.map (fun p => s.timeOf p.1)).Pairwise (fun a b => a ≤ b)

/-- `now` is at least every recorded access time — true of any
`time.time()` reading taken after the existing entries were stamped. -/
def upperBound (s : LRUCache V) (now : Int) : Prop :=
  ∀ p ∈ s.cache, s.timeOf p.1 ≤ now

/-- The `time.time()` value an operation observes. -/
def opTime : Op V → Int
  | .get now _ => now
  | .put now _ _ => now
  | .cleanup now => now

end LRUCache

/-! ### Query validation and the front of `search`
(`infinity_search_engine.py`, `validate_query` lines 67–84 and
`InfinityStonesSearchEngine.search` lines 485–503) -/

/-- `validate_query`: `.error` models a raised `ValidationError`. -/
def validate_query (query : String) : Except String String :=
  if query = "" then .error "Query must be a non-empty string"
  else
    let cleaned := pyStrip query
    if cleaned.length = 0 then .error "Query cannot be empty or whitespace only"
    else
      let truncated := if cleaned.length > 500 then (⟨cleaned.data.take 500⟩ : String) else cleaned
      .ok ⟨truncated.data.filter (fun c => c ∉ ['<', '>', '"', '\''])⟩

/-- The decision logic at the top of `InfinityStonesSearchEngine.search`:
an invalid query is answered with the empty result list (`.ok none`)
*before* the initialization check; only then does an empty product
collection raise `SearchError` (`.error`); otherwise the pipeline
proceeds on the cleaned query (`.ok (some cleaned)`). -/
def search_entry {α : Type} (products : List α) (query : String) :
    Except String (Option String) :=
  match validate_query query with
  | .error _ => .ok none
  | .ok cleaned =>
    if products.isEmpty then .error "Search engine not initialized properly"
    else .ok (some cleaned)

/-! ### The boolean query tokenizer and parser
(`BooleanSearchEngine` in `advanced_search_features.py`, lines 162–275) -/

/-- `self.operators = {'AND', 'OR', 'NOT', '(', ')'}`. -/
def operators : List String := ["AND", "OR", "NOT", "(", ")"]

/-- `query.replace('(', ' ( ').replace(')', ' ) ')` — both needles are
single characters, so one character-wise pass is the same substitution. -/
def expandParens : List Char → List Char
  | [] => []
  | c :: cs =>
    (if c = '(' then [' ', '(', ' ']
     else if c = ')' then [' ', ')', ' ']
     else [c]) ++ expandParens cs

/-- `BooleanSearchEngine._tokenize_boolean_query` (the `token.strip()` in
the source is the identity on whitespace-split tokens). -/
def tokenize_boolean_query (query : String) : List String :=
  let q : String := ⟨expandParens (upperStr query).data⟩
  (pySplit q).map (fun t => if operators.contains t then t else lowerStr t)

mutual

/-- `BooleanSearchEngine._parse_or_expression`; the `fuel` argument only
bounds recursion depth and is chosen large enough at the top entry. -/
def parse_or_expression : Nat → List String → Except String (BoolExpr × List String)
  | 0, _ => .error "fuel exhausted"
  | fuel + 1, toks =>
    match parse_and_expression fuel toks with
    | .ok (left, rest) => parse_or_loop fuel left rest
    | .error e => .error e

/-- The `while ... tokens[pos] == 'OR'` loop of `_parse_or_expression`. -/
def parse_or_loop : Nat → BoolExpr → List String → Except String (BoolExpr × List String)
  | 0, _, _ => .error "fuel exhausted"
  | fuel + 1, left, toks =>
    match toks with
    | "OR" :: rest =>
      match parse_and_expression fuel rest with
      | .ok (right, rest') => parse_or_loop fuel (.or left right) rest'
      | .error e => .error e
    | _ => .ok (left, toks)

/-- `BooleanSearchEngine._parse_and_expression`. -/
def parse_and_expression : Nat → List String → Except String (BoolExpr × List String)
  | 0, _ => .error "fuel exhausted"
  | fuel + 1, toks =>
    match parse_not_expression fuel toks with
    | .ok (left, rest) => parse_and_loop fuel left rest
    | .error e => .error e

/-- The `while ... tokens[pos] == 'AND'` loop of `_parse_and_expression`. -/
def parse_and_loop : Nat → BoolExpr → List String → Except String (BoolExpr × List String)
  | 0, _, _ => .error "fuel exhausted"
  | fuel + 1, left, toks =>
    match toks with
    | "AND" :: rest =>
      match parse_not_expression fuel rest with
      | .ok (right, rest') => parse_and_loop fuel (.and left right) rest'
      | .error e => .error e
    | _ => .ok (left, toks)

/-- `BooleanSearchEngine._parse_not_expression`. -/
def parse_not_expression : Nat → List String → Except String (BoolExpr × List String)
  | 0, _ => .error "fuel exhausted"
  | fuel + 1, toks =>
    match toks with
    | "NOT" :: rest =>
      match parse_primary_expression fuel rest with
      | .ok (e, rest') => .ok (.not e, rest')
      | .error msg => .error msg
    | _ => parse_primary_expression fuel toks

/-- `BooleanSearchEngine._parse_primary_expression`. -/
def parse_primary_expression : Nat → List String → Except String (BoolExpr × List String)
  | 0, _ => .error "fuel exhausted"
  | _ + 1, [] => .error "Unexpected end of expression"
  | fuel + 1, t :: rest =>
    if t = "(" then
      match parse_or_expression fuel rest with
      | .ok (e, rest') =>
        match rest' with
        | ")" :: rest'' => .ok (e, rest'')
        | _ => .error "Missing closing parenthesis"
      | .error msg => .error msg
    else if operators.contains t then .error ("Unexpected token: " ++ t)
    else .ok (.term t, rest)

end

/-- `BooleanSearchEngine._parse_expression`: empty token list parses to
the `Empty` node; otherwise the top-level OR production is run and —
exactly as in the Python, which discards the returned position — any
tokens left over after it are ignored. -/
def parse_expression (toks : List String) : Except String BoolExpr :=
  if toks = [] then .ok .empty
  else
    match parse_or_expression (8 * toks.length + 8) toks with
    | .ok (e, _) => .ok e
    | .error msg => .error msg

/-- The result dict of `BooleanSearchEngine.parse_boolean_query`:
`success`/`expression`/`tokens` on success, `success=False` plus
`fallback_terms = query.split()` on a parse exception. -/
structure ParseResult where
  success : Bool
  expression : Option BoolExpr
  tokens : List String
  fallback_terms : List String
deriving DecidableEq

/-- `BooleanSearchEngine.parse_boolean_query` (lines 162–191). -/
def parse_boolean_query (query : String) : ParseResult :=
  let toks := tokenize_boolean_query query
  match parse_expression toks with
  | .ok e => ⟨true, some e, toks, []⟩
  | .error _ => ⟨false, none, [], pySplit query⟩

/-- The dispatch made by `InfinityStonesSearchEngine.search_boolean`
(lines 577–593): on parse failure the raw-split fallback terms are handed
to plain keyword `search` (`.inl`), otherwise the parsed expression is
evaluated (`.inr`). -/
def search_boolean_dispatch (query : String) : List String ⊕ BoolExpr :=
  let pr := parse_boolean_query query
  if pr.success then
    match pr.expression with
    | some e => .inr e
    | none => .inl pr.fallback_terms
  else .inl pr.fallback_terms

/-! ### The fuzzy matcher (`FuzzySearchEngine` in
`advanced_search_features.py`, lines 24–152) -/

/-- Inner loop of `_levenshtein_distance`'s row computation: walks the
rest of `s2` together with the previous row (`pj`, `pj1`, …), carrying
the last value `cur` appended to the current row. -/
def levInner (c1 : Char) : List Char → List Nat → Nat → List Nat
  | c2 :: cs, pj :: pj1 :: pr, cur =>
    let v := min (pj1 + 1) (min (cur + 1) (pj + (if c1 = c2 then 0 else 1)))
    v :: levInner c1 cs (pj1 :: pr) v
  | _, _, _ => []

/-- The row-by-row dynamic program of `_levenshtein_distance`
(`previous_row` starts as `range(len(s2)+1)`). -/
def levRows (s1 s2 : List Char) : List Nat :=
  s1.enum.foldl (fun prev ic => (ic.1 + 1) :: levInner ic.2 s2 prev (ic.1 + 1))
    (List.range (s2.length + 1))

/-- `_levenshtein_distance` after its one argument swap (`len s1 ≥ len s2`). -/
def levCore (s1 s2 : List Char) : Nat :=
  if s2.length = 0 then s1.length else (levRows s1 s2).getLastD 0

/-- `FuzzySearchEngine._levenshtein_distance` (lines 132–152). -/
def levenshtein_distance (s1 s2 : List Char) : Nat :=
  if s1.length < s2.length then levCore s2 s1 else levCore s1 s2

/-- `FuzzySearchEngine._levenshtein_similarity` (lines 118–130). -/
def levenshtein_similarity (s1 s2 : List Char) : ℚ :=
  if s1.length = 0 ∧ s2.length = 0 then 1
  else
    let maxLen := max s1.length s2.length
    if maxLen = 0 then 1
    else 1 - (levenshtein_distance s1 s2 : ℚ) / (maxLen : ℚ)

/-- `match_distance = max(0, (max(len(s1), len(s2)) // 2) - 1)` — on `Nat`
the truncated subtraction is exactly the `max 0`. -/
def jaroWindow (l1 l2 : Nat) : Nat := max l1 l2 / 2 - 1

/-- The inner `for j in range(start, end)` of `_jaro_similarity`'s match
identification: the first `j` in the window whose `s2` character is
unmatched and equals `c`. -/
def jaroFindJ (s2 : List Char) (s2m : List Bool) (c : Char) (start fin : Nat) :
    Option Nat :=
  (List.range' start (fin - start)).find?
    (fun j => !(s2m.getD j true) && (s2.getD j ' ' == c))

/-- One iteration (one `i`) of the match-identification loop of
`_jaro_similarity`. -/
def jaroMarkStep (s1 s2 : List Char) (d : Nat) (acc : List Bool × List Bool)
    (i : Nat) : List Bool × List Bool :=
  match jaroFindJ s2 acc.2 (s1.getD i ' ') (i - d) (min (i + d + 1) s2.length) with
  | some j => (acc.1 ++ [true], acc.2.set j true)
  | none => (acc.1 ++ [false], acc.2)

/-- The match-identification loop of `_jaro_similarity` (lines 81–97):
produces `s1_matches` (decision per `i`, in order) and `s2_matches`
(boolean array over `s2`). -/
def jaroMarks (s1 s2 : List Char) (d : Nat) : List Bool × List Bool :=
  (List.range s1.length).foldl (jaroMarkStep s1 s2 d)
    ([], List.replicate s2.length false)

/-- The transposition-counting walk of `_jaro_similarity` (lines 102–111):
for every matched position of `s1` in order, advance `k` to the next
matched position of `s2` and compare the two characters. -/
def transWalk : List (Char × Bool) → List (Char × Bool) → Nat
  | [], _ => 0
  | (_, false) :: r1, l2 => transWalk r1 l2
  | (c, true) :: r1, l2 =>
    match l2.dropWhile (fun p => ! p.2) with
    | [] => 0
    | (c2, _) :: r2 => (if c = c2 then 0 else 1) + transWalk r1 r2

/-- `FuzzySearchEngine._jaro_similarity` (lines 69–116).  Note the code's
`transpositions` variable counts *mismatched aligned positions*; the
final formula divides it by two. -/
def jaro_similarity (s1 s2 : List Char) : ℚ :=
  if s1.length = 0 ∧ s2.length = 0 then 1
  else if s1.length = 0 ∨ s2.length = 0 then 0
  else
    let d := jaroWindow s1.length s2.length
    let ms := jaroMarks s1 s2 d
    let m := ms.1.count true
    if m = 0 then 0
    else
      let t := transWalk (s1.zip ms.1) (s2.zip ms.2)
      ((m : ℚ) / s1.length + (m : ℚ) / s2.length + ((m : ℚ) - (t : ℚ) / 2) / m) / 3

/-! Spec-side Jaro, written from the claim's words rather than from the
source: greedy matching of each `s1` position to the first unused `s2`
position inside the window `max(0, floor(max(len1,len2)/2) - 1)`, and
the transposition count `t` obtained by aligning the matched characters
in original order (half the number of aligned positions that differ). -/

/-- Modelled from the claim: one greedy matching step — position `i` of
`s1` takes the first unused `j` of `s2` inside the window with an equal
character. -/
def specJaroStep (s1 s2 : List Char) (d : Nat) (pairs : List (Nat × Nat))
    (i : Nat) : List (Nat × Nat) :=
  match (List.range s2.length).find? (fun j =>
      decide (i - d ≤ j) && decide (j ≤ i + d) &&
      pairs.all (fun p => p.2 ≠ j) && (s1.getD i ' ' == s2.getD j ' ')) with
  | some j => pairs ++ [(i, j)]
  | none => pairs

/-- Modelled from the claim: standard Jaro matched pairs, greedily, each
`i` taking the first unused `j` with `|i - j|` within the window. -/
def specJaroPairs (s1 s2 : List Char) (d : Nat) : List (Nat × Nat) :=
  (List.range s1.length).foldl (specJaroStep s1 s2 d) []

/-- The characters at the marked positions of a marked character list, in
order. -/
def maskChars (l : List (Char × Bool)) : List Char :=
  (l.filter (fun p => p.2)).map Prod.fst

/-- Modelled from the claim: the transposition count `t` — align the
matched characters of `s1` (in `s1` order) with the matched characters
of `s2` (in `s2` order) and take half the number of differing positions. -/
def specJaroT (s1 s2 : List Char) (pairs : List (Nat × Nat)) : ℚ :=
  let a := pairs.map (fun p => s1.getD p.1 ' ')
  let js := (pairs.map Prod.snd).mergeSort (fun x y => x ≤ y)
  let b := js.map (fun j => s2.getD j ' ')
  (((a.zip b).filter (fun p => p.1 ≠ p.2)).length : ℚ) / 2

/-- Modelled from the claim: the standard Jaro value
`(m/len1 + m/len2 + (m - t)/m) / 3`, with the stated empty-string and
zero-match special cases. -/
def spec_jaro (s1 s2 : List Char) : ℚ :=
  if s1.length = 0 ∧ s2.length = 0 then 1
  else if s1.length = 0 ∨ s2.length = 0 then 0
  else
    let d := max 0 (max s1.length s2.length / 2 - 1)
    let pairs := specJaroPairs s1 s2 d
    let m := pairs.length
    if m = 0 then 0
    else ((m : ℚ) / s1.length + (m : ℚ) / s2.length +
          ((m : ℚ) - specJaroT s1 s2 pairs) / m) / 3

/-! `difflib.SequenceMatcher(None, a, b).ratio()` as invoked by
`find_fuzzy_matches`: `isjunk` is `None`, so the junk set is empty and
only the `autojunk` "popular element" purge (for `len(b) ≥ 200`) can
remove positions from `b2j`. -/

/-- `b2j[c]` before the autojunk purge: the positions of `c` in `b`. -/
def charPositions (b : List Char) (c : Char) : List Nat :=
  (List.range b.length).filter (fun j => b.getD j ' ' == c)

/-- The autojunk "popular" test: only applies when `len(b) ≥ 200`. -/
def isPopular (b : List Char) (c : Char) : Bool :=
  decide (b.length ≥ 200) && decide ((charPositions b c).length > b.length / 100 + 1)

/-- `b2j.get(a[i], [])` after the autojunk purge. -/
def b2jGet (b : List Char) (c : Char) : List Nat :=
  if isPopular b c then [] else charPositions b c

/-- `j2len.get(j - 1, 0)` — in Python the key `-1` is always absent, so
`j = 0` yields the default `0`. -/
def j2lenGet (l : List (Nat × Nat)) (j : Nat) : Nat :=
  if j = 0 then 0
  else
    match l.find? (fun p => p.1 = j - 1) with
    | some p => p.2
    | none => 0

/-- State of `find_longest_match`'s scan: the previous row's `j2len`
mapping and the best block found so far. -/
structure FlmState where
  j2len : List (Nat × Nat)
  besti : Nat
  bestj : Nat
  bestsize : Nat

/-- One iteration (one `i`) of `find_longest_match`'s scan. -/
def flmRow (a b : List Char) (blo bhi : Nat) (st : FlmState) (i : Nat) : FlmState :=
  let js := ((b2jGet b (a.getD i ' ')).filter (fun j => blo ≤ j)).takeWhile
    (fun j => j < bhi)
  let res := js.foldl
    (fun (acc : List (Nat × Nat) × Nat × Nat × Nat) j =>
      let k := j2lenGet st.j2len j + 1
      let nj2 := (j, k) :: acc.1
      if k > acc.2.2.2 then (nj2, i + 1 - k, j + 1 - k, k)
      else (nj2, acc.2.1, acc.2.2.1, acc.2.2.2))
    ([], st.besti, st.bestj, st.bestsize)
  ⟨res.1, res.2.1, res.2.2.1, res.2.2.2⟩

/-- The main scan of `SequenceMatcher.find_longest_match` over
`i ∈ [alo, ahi)`. -/
def flmScan (a b : List Char) (alo ahi blo bhi : Nat) : FlmState :=
  (List.range' alo (ahi - alo)).foldl (flmRow a b blo bhi) ⟨[], alo, blo, 0⟩

/-- The leftward block extension (`while besti > alo and bestj > blo and
a[besti-1] == b[bestj-1]`; the junk guard is vacuous with `isjunk=None`). -/
def extendLeft (a b : List Char) (alo blo i j k : Nat) : Nat × Nat × Nat :=
  if h : alo < i ∧ blo < j ∧ a.getD (i - 1) ' ' = b.getD (j - 1) ' ' then
    extendLeft a b alo blo (i - 1) (j - 1) (k + 1)
  else (i, j, k)
termination_by i
decreasing_by omega

/-- The rightward block extension. -/
def extendRight (a b : List Char) (ahi bhi i j k : Nat) : Nat :=
  if h : i + k < ahi ∧ j + k < bhi ∧ a.getD (i + k) ' ' = b.getD (j + k) ' ' then
    extendRight a b ahi bhi i j (k + 1)
  else k
termination_by ahi - (i + k)
decreasing_by omega

/-- `SequenceMatcher.find_longest_match` (with `isjunk = None`). -/
def find_longest_match (a b : List Char) (alo ahi blo bhi : Nat) : Nat × Nat × Nat :=
  let st := flmScan a b alo ahi blo bhi
  let ijk := extendLeft a b alo blo st.besti st.bestj st.bestsize
  (ijk.1, ijk.2.1, extendRight a b ahi bhi ijk.1 ijk.2.1 ijk.2.2)

/-- Total size of the matching blocks of `get_matching_blocks` on the
region `[alo,ahi) × [blo,bhi)` (the queue-driven recursion, whose block
multiset is traversal-order independent; `ratio()` only needs the sum).
`fuel` bounds the recursion depth and is ample at the entry point. -/
def mbSum (a b : List Char) : Nat → Nat → Nat → Nat → Nat → Nat
  | 0, _, _, _, _ => 0
  | fuel + 1, alo, ahi, blo, bhi =>
    let ijk := find_longest_match a b alo ahi blo bhi
    let i := ijk.1
    let j := ijk.2.1
    let k := ijk.2.2
    if k = 0 then 0
    else
      (if alo < i ∧ blo < j then mbSum a b fuel alo i blo j else 0) + k +
      (if i + k < ahi ∧ j + k < bhi then mbSum a b fuel (i + k) ahi (j + k) bhi else 0)

/-- `difflib.SequenceMatcher(None, a, b).ratio()`:
`2.0 * matches / (len(a) + len(b))`, and `1.0` when both are empty. -/
def sequence_matcher_score (a b : List Char) : ℚ :=
  let total := a.length + b.length
  if total = 0 then 1
  else 2 * (mbSum a b (total + 1) 0 a.length 0 b.length : ℚ) / (total : ℚ)

/-- The dataclass `FuzzyMatch`. -/
structure FuzzyMatch where
  original_term : String
  matched_term : String
  similarity : ℚ
  source : String
deriving DecidableEq

/-- `max(similarities)` over the three metrics of `find_fuzzy_matches`. -/
def fuzzyBest (q t : List Char) : ℚ :=
  max (sequence_matcher_score q t) (max (jaro_similarity q t) (levenshtein_similarity q t))

/-- `FuzzySearchEngine.find_fuzzy_matches` (lines 33–67); the similarity
threshold is the engine's configured `similarity_threshold` field. -/
def find_fuzzy_matches (similarity_threshold : ℚ) (query_term : String)
    (corpus_terms : List String) (max_results : Nat) : List FuzzyMatch :=
  let ql := lowerStr query_term
  let kept := corpus_terms.filterMap (fun term =>
    let tl := lowerStr term
    if ql = tl then none
    else
      let best := fuzzyBest ql.data tl.data
      if best ≥ similarity_threshold then
        some ⟨query_term, term, best, "corpus"⟩
      else none)
  (kept.mergeSort (fun x y => y.similarity ≤ x.similarity)).take max_results

/-! ### The faceted filter (`FacetedSearchEngine` in
`advanced_search_features.py`, lines 313–496).  Products handed to the
facet engine are plain string-field records. -/

/-- A product record as the facet engine sees it. -/
abbrev Product := List (String × String)

/-- `product.get(field, '')`. -/
def pGet (p : Product) (k : String) : String :=
  match p.find? (fun e => e.1 = k) with
  | some e => e.2
  | none => ""

/-- `any(keyword in type_lower for keyword in kws)`. -/
def typeHasAny (t : List Char) (kws : List String) : Bool :=
  kws.any (fun k => containsSub t k.data)

/-- `FacetedSearchEngine._infer_category` (lines 370–393). -/
def infer_category (product_type : String) : String :=
  let t := (lowerStr product_type).data
  if typeHasAny t ["phone", "mobile", "smartphone", "tablet"] then "Mobile & Tablets"
  else if typeHasAny t ["laptop", "computer", "pc", "desktop"] then "Computers"
  else if typeHasAny t ["headphone", "earphone", "speaker", "audio"] then "Audio"
  else if typeHasAny t ["car", "auto", "vehicle"] then "Automotive"
  else if typeHasAny t ["camera", "photo", "lens"] then "Photography"
  else if typeHasAny t ["home", "kitchen", "furniture"] then "Home & Kitchen"
  else if typeHasAny t ["beauty", "cosmetic", "skincare"] then "Beauty"
  else if typeHasAny t ["sport", "fitness", "exercise"] then "Sports & Fitness"
  else "Other"

/-- `FacetedSearchEngine._extract_price_range` (lines 395–411); the
`"Under â‚¹1000"` literal is byte-for-byte the source's. -/
def extract_price_range (p : Product) : String :=
  let full := (lowerStr (pGet p "Sales Package" ++ " " ++ pGet p "Name")).data
  if containsSub full "under".data &&
      (["1000", "500", "100"].any (fun s => containsSub full s.data)) then "Under â‚¹1000"
  else if ["premium", "expensive", "high-end"].any (fun s => containsSub full s.data) then
    "Premium"
  else if ["budget", "affordable", "cheap"].any (fun s => containsSub full s.data) then
    "Budget"
  else "Standard"

/-- The spec-keyword list of `_has_detailed_specs`. -/
def spec_indicators : List String :=
  ["gb", "mb", "inch", "mp", "mah", "hz", "ghz", "ram", "storage", "battery"]

/-- `FacetedSearchEngine._has_detailed_specs` (lines 413–425). -/
def has_detailed_specs (p : Product) : Bool :=
  let sp := pGet p "Sales Package"
  if sp = "" then false
  else
    let low := (lowerStr sp).data
    decide ((spec_indicators.filter (fun ind => containsSub low ind.data)).length ≥ 2) ||
      decide (sp.length > 200)

/-- `product.get('id', '')`. -/
def product_id (p : Product) : String := pGet p "id"

/-- The per-facet branch of `filter_by_facets`'s inner loop: whether the
product's value for `facet_name` lies in the selected list.  Unrecognized
facet names leave `product_matches_facet` at `False`. -/
def matchesFacet (p : Product) (facet_name : String) (selected : List String) : Bool :=
  if facet_name = "brand" then selected.contains (pGet p "Brand")
  else if facet_name = "type" then selected.contains (pGet p "Type")
  else if facet_name = "category" then selected.contains (infer_category (pGet p "Type"))
  else if facet_name = "price_range" then selected.contains (extract_price_range p)
  else if facet_name = "has_specs" then
    selected.contains (if has_detailed_specs p then "Yes" else "No")
  else false

/-- The `for facet_name, selected_values in filters.items()` loop: an
empty selected list imposes no restriction, and the loop breaks at the
first failing facet. -/
def matchesAllFilters (p : Product) (filters : List (String × List String)) : Bool :=
  filters.all (fun f => f.2.isEmpty || matchesFacet p f.1 f.2)

/-- `FacetedSearchEngine.filter_by_facets` (lines 433–496). -/
def filter_by_facets (products : List Product) (product_ids : Finset String)
    (filters : List (String × List String)) : Finset String :=
  if filters = [] then product_ids
  else
    ((products.filter (fun p =>
        decide (product_id p ∈ product_ids) && matchesAllFilters p filters)).map
      product_id).toFinset

/-- Modelled from the claim: the document's "corresponding facet value"
for each of the five recognized facet names (brand, type, inferred
category, price tier, spec-completeness flag), `none` otherwise. -/
def facetValue (p : Product) (facet_name : String) : Option String :=
  if facet_name = "brand" then some (pGet p "Brand")
  else if facet_name = "type" then some (pGet p "Type")
  else if facet_name = "category" then some (infer_category (pGet p "Type"))
  else if facet_name = "price_range" then some (extract_price_range p)
  else if facet_name = "has_specs" then
    some (if has_detailed_specs p then "Yes" else "No")
  else none

/-! ### Document-store mutation performed by the search stages
(`SpaceStone.search` lines 779–794 and
`PowerStone._optimize_performance` lines 1476–1490 of
`infinity_search_engine.py`).

Documents in the engine's store hold heterogeneous values: the loaded
fields are strings, while the metadata the stages write includes ints
and bools. -/

/-- A field value of a stored document. -/
inductive FieldVal where
  | str (v : String)
  | nat (v : Nat)
  | bool (v : Bool)
deriving DecidableEq

/-- A stored document: an ordered field map. -/
abbrev Doc := List (String × FieldVal)

/-- `doc.get(k)` (no default: `none` models Python's `None`). -/
def docGet (p : Doc) (k : String) : Option FieldVal :=
  (p.find? (fun e => e.1 = k)).map Prod.snd

/-- `p.get('id')` compared against a string product id: only a string
field can compare equal. -/
def docIdStr (p : Doc) : Option String :=
  match docGet p "id" with
  | some (.str v) => some v
  | _ => none

/-- Python dict assignment `p[k] = v`: overwrite in place, else append. -/
def docSet (p : Doc) (k : String) (v : FieldVal) : Doc := setKey p k v

/-- The field names of a document. -/
def docKeys (p : Doc) : List String := p.map Prod.fst

/-- `product_scores[product_id] += 1` on a `defaultdict` (insertion order
is first-hit order, as in the Python dict). -/
def bumpScore (scores : List (String × Nat)) (pid : String) : List (String × Nat) :=
  if scores.any (fun q => q.1 = pid) then
    scores.map (fun q => if q.1 = pid then (q.1, q.2 + 1) else q)
  else scores ++ [(pid, 1)]

/-- `shard_hits[shard_id] += 1`. -/
def bumpShard (hits : List (Nat × Nat)) (sid : Nat) : List (Nat × Nat) :=
  if hits.any (fun q => q.1 = sid) then
    hits.map (fun q => if q.1 = sid then (q.1, q.2 + 1) else q)
  else hits ++ [(sid, 1)]

/-- `shard_hits[sid]` lookup. -/
def assocGetNat (l : List (Nat × Nat)) (k : Nat) : Nat :=
  match l.find? (fun p => p.1 = k) with
  | some p => p.2
  | none => 0

/-- The scoring loop of `SpaceStone.search`: for each query word with a
posting list, bump each posted product's score and its shard's hit
count.  `shardOf` models `_get_shard_for_product` (Python `hash`-based). -/
def spaceScan (index : List (String × List String)) (shardOf : String → Nat)
    (query_words : List String) : List (String × Nat) × List (Nat × Nat) :=
  query_words.foldl
    (fun acc w =>
      match index.find? (fun e => e.1 = w) with
      | some e =>
        e.2.foldl (fun acc2 pid => (bumpScore acc2.1 pid, bumpShard acc2.2 (shardOf pid))) acc
      | none => acc)
    ([], [])

/-- `next((p for p in self.engine.products if p.get('id') == product_id), None)`
followed by in-place mutation of that first matching document. -/
def setFirstWithId (pid : String) (upd : Doc → Doc) : List Doc → List Doc
  | [] => []
  | p :: rest =>
    if docIdStr p = some pid then upd p :: rest else p :: setFirstWithId pid upd rest

/-- The effect of `SpaceStone.search` on the document store: for each
scored product id (in first-hit order) the first stored document with
that id receives `_shard_id` and `_shard_hits` metadata fields by dict
assignment. -/
def space_stone_mutation (index : List (String × List String)) (shardOf : String → Nat)
    (query : String) (products : List Doc) : List Doc :=
  let qwords := wordTokens (lowerStr query)
  let scan := spaceScan index shardOf qwords
  (scan.1.map Prod.fst).foldl
    (fun ps pid =>
      let sid := shardOf pid
      setFirstWithId pid
        (fun p =>
          docSet (docSet p "_shard_id" (.nat sid)) "_shard_hits"
            (.nat (assocGetNat scan.2 sid))) ps)
    products

/-- The effect of `PowerStone._optimize_performance` on one result's
`product_data`: `result.product_data['_power_optimized'] = True` and
`result.product_data['_query_processed'] = query`. -/
def power_stone_mutation (query : String) (p : Doc) : Doc :=
  docSet (docSet p "_power_optimized" (.bool true)) "_query_processed" (.str query)

/-- Whether a field name starts with an underscore (the convention of
every metadata field the search stages write). -/
def underscoreKey (key : String) : Bool :=
  match key.data with
  | c :: _ => c = '_'
  | [] => false

/-- The frame condition the amended C8 claim asserts between a stored
document before and after a search stage touches it: lookups of
non-underscore fields are unchanged (so none is added, removed or
modified), and any new field name starts with an underscore. -/
def MetaOnly (p q : Doc) : Prop :=
  (∀ key, underscoreKey key = false → docGet q key = docGet p key) ∧
  (∀ key, key ∈ docKeys q → key ∈ docKeys p ∨ underscoreKey key = true)

/-- A one-word inverted index used to exercise the store mutation. -/
def exIndex : List (String × List String) := [("phone", ["p1"])]

/-- A one-document store used to exercise the store mutation. -/
def exStore : List Doc := [[("id", .str "p1"), ("Name", .str "Phone X")]]

/-- The spec's worked facet example: four products with brands and types. -/
def exProducts : List Product :=
  [[("id", "1"), ("Brand", "Samsung"), ("Type", "Phone")],
   [("id", "2"), ("Brand", "Apple"), ("Type", "Phone")],
   [("id", "3"), ("Brand", "Sony"), ("Type", "Headphone")],
   [("id", "4"), ("Brand", "Samsung"), ("Type", "TV")]]

/-- The candidate id set for the facet example. -/
def exIds : Finset String := {"1", "2", "3", "4"}

/-! ## Theorems -/

/-- Looking up the assigned key after a dict assignment finds the new
entry. -/
theorem find?_setKey_self {A : Type} (l : List (String × A)) (key : String) (v : A) :
    (setKey l key v).find? (fun p => p.1 = key) = some (key, v) := by
  have hmap : ∀ m : List (String × A), m.any (fun p => p.1 = key) = true →
      List.find? (fun p => decide (p.1 = key))
        (m.map (fun p => if p.1 = key then (key, v) else p)) = some (key, v) := by
    intro m
    induction m with
    | nil =>
      intro hl
      simp at hl
    | cons hd tl ih =>
      intro hl
      by_cases hh : hd.1 = key
      · rw [List.map_cons, if_pos hh, List.find?_cons_of_pos _ (by simp)]
      · have ht : tl.any (fun p => p.1 = key) = true := by
          rcases List.any_eq_true.mp hl with ⟨x, hx, hpx⟩
          rcases List.mem_cons.mp hx with rfl | hx2
          · exact absurd (of_decide_eq_true hpx) hh
          · exact List.any_eq_true.mpr ⟨x, hx2, hpx⟩
        rw [List.map_cons, if_neg hh, List.find?_cons_of_neg _ (by simp [hh])]
        exact ih ht
  unfold setKey
  by_cases hany : l.any (fun p => p.1 = key)
  · rw [if_pos hany]
    exact hmap l hany
  · rw [if_neg hany, List.find?_append]
    have hnone : l.find? (fun p => decide (p.1 = key)) = none := by
      rw [List.find?_eq_none]
      intro x hx hpx
      exact hany (List.any_eq_true.mpr ⟨x, hx, hpx⟩)
    rw [hnone, List.find?_cons_of_pos _ (by simp)]
    rfl

/-- A dict assignment leaves the lookup of every other key unchanged. -/
theorem find?_setKey_other {A : Type} (l : List (String × A)) (key : String) (v : A)
    (k : String) (h : k ≠ key) :
    (setKey l key v).find? (fun p => p.1 = k) = l.find? (fun p => p.1 = k) := by
  have hmap : ∀ m : List (String × A),
      List.find? (fun p => decide (p.1 = k))
          (m.map (fun p => if p.1 = key then (key, v) else p)) =
        List.find? (fun p => decide (p.1 = k)) m := by
    intro m
    induction m with
    | nil => rfl
    | cons hd tl ih =>
      by_cases hh : hd.1 = key
      · rw [List.map_cons, if_pos hh,
          List.find?_cons_of_neg _ (by simpa using Ne.symm h),
          List.find?_cons_of_neg _ (by simpa [hh] using Ne.symm h), ih]
      · by_cases hhk : hd.1 = k
        · rw [List.map_cons, if_neg hh, List.find?_cons_of_pos _ (by simpa using hhk),
            List.find?_cons_of_pos _ (by simpa using hhk)]
        · rw [List.map_cons, if_neg hh, List.find?_cons_of_neg _ (by simpa using hhk),
            List.find?_cons_of_neg _ (by simpa using hhk), ih]
  unfold setKey
  by_cases hany : l.any (fun p => p.1 = key)
  · rw [if_pos hany]
    exact hmap l
  · rw [if_neg hany, List.find?_append,
      List.find?_cons_of_neg _ (by simpa using Ne.symm h)]
    simp

/-- A dict assignment keeps the key list, appending the key only when new. -/
theorem keys_setKey {A : Type} (l : List (String × A)) (key : String) (v : A) :
    (setKey l key v).map Prod.fst =
      if l.any (fun p => p.1 = key) then l.map Prod.fst
      else l.map Prod.fst ++ [key] := by
  unfold setKey
  by_cases hany : l.any (fun p => p.1 = key)
  · rw [if_pos hany, if_pos hany, List.map_map]
    refine List.map_congr_left fun e _ => ?_
    by_cases he : e.1 = key
    · simp [he]
    · simp [he]
  · rw [if_neg hany, if_neg hany]
    simp

/-- A filter whose predicate keeps every entry of a given key spares that
key's lookup. -/
theorem find?_filter_of_key_kept {A : Type} (l : List (String × A))
    (P : String × A → Bool) (k : String)
    (hkeep : ∀ p : String × A, p.1 = k → P p = true) :
    (l.filter P).find? (fun p => p.1 = k) = l.find? (fun p => p.1 = k) := by
  induction l with
  | nil => rfl
  | cons hd tl ih =>
    simp only [List.filter_cons]
    by_cases hk : hd.1 = k
    · rw [if_pos (hkeep hd hk), List.find?_cons_of_pos _ (by simpa using hk),
        List.find?_cons_of_pos _ (by simpa using hk)]
    · by_cases hq : P hd = true
      · rw [if_pos hq, List.find?_cons_of_neg _ (by simpa using hk),
          List.find?_cons_of_neg _ (by simpa using hk), ih]
      · rw [if_neg hq, List.find?_cons_of_neg _ (by simpa using hk), ih]

/-- Membership in a left fold of finite-set unions. -/
theorem mem_foldl_union (l : List (Finset String)) (init : Finset String) (x : String) :
    x ∈ l.foldl (fun acc s => acc ∪ s) init ↔ x ∈ init ∨ ∃ s ∈ l, x ∈ s := by
  induction l generalizing init with
  | nil => simp
  | cons hd tl ih =>
    simp only [List.foldl_cons, ih, Finset.mem_union, List.mem_cons]
    constructor
    · rintro (⟨h | h⟩ | ⟨s, hs, hx⟩)
      · exact Or.inl h
      · exact Or.inr ⟨hd, Or.inl rfl, h⟩
      · exact Or.inr ⟨s, Or.inr hs, hx⟩
    · rintro (h | ⟨s, rfl | hs, hx⟩)
      · exact Or.inl (Or.inl h)
      · exact Or.inl (Or.inr hx)
      · exact Or.inr ⟨s, hs, hx⟩

/-- C1: evaluation of boolean expression trees is compositional exactly as
specified — `Term` looks its value up in `termMatches` with empty-set
default, `And` intersects, `Or` unions, `Not` subtracts the operand's
result from the union of all id sets appearing as values of
`termMatches`, and any other node (`Empty`) evaluates to the empty set. -/
theorem boolean_evaluation_c1 (m : List (String × Finset String)) (v : String)
    (l r o : BoolExpr) (x : String) :
    evaluate_boolean_expression (.term v) m = dictGet m v ∧
    evaluate_boolean_expression (.and l r) m =
      evaluate_boolean_expression l m ∩ evaluate_boolean_expression r m ∧
    evaluate_boolean_expression (.or l r) m =
      evaluate_boolean_expression l m ∪ evaluate_boolean_expression r m ∧
    (x ∈ evaluate_boolean_expression (.not o) m ↔
      (∃ p ∈ m, x ∈ p.2) ∧ x ∉ evaluate_boolean_expression o m) ∧
    evaluate_boolean_expression .empty m = ∅ := by
  refine ⟨rfl, rfl, rfl, ?_, rfl⟩
  show x ∈ allProducts m \ evaluate_boolean_expression o m ↔ _
  rw [Finset.mem_sdiff]
  unfold allProducts
  rw [mem_foldl_union]
  simp only [Finset.not_mem_empty, false_or, List.mem_map]
  constructor
  · rintro ⟨⟨s, ⟨p, hp, rfl⟩, hx⟩, hno⟩
    exact ⟨⟨p, hp, hx⟩, hno⟩
  · rintro ⟨⟨p, hp, hx⟩, hno⟩
    exact ⟨⟨p.2, ⟨p, hp, rfl⟩, hx⟩, hno⟩

/-- C4 (counterexample): with an empty document collection and a
whitespace-only query, `search` answers the empty result list instead of
raising, refuting the claimed "raises whenever the collection is empty"
direction of the equivalence. -/
theorem search_error_c4_counterexample :
    search_entry ([] : List Unit) " " = .ok none ∧ ([] : List Unit) = [] :=
  ⟨rfl, rfl⟩

/-- C4 (amended): `search` raises exactly when the document collection is
empty AND the query passes validation; a query that is empty after
stripping yields the empty result list even on an uninitialized engine;
with a non-empty collection a valid query is stripped, truncated to 500
characters, and purged of the characters `<`, `>`, `"`, `'` before
searching. -/
theorem search_error_c4 {α : Type} (products : List α) (query : String) :
    ((∃ msg, search_entry products query = .error msg) ↔
      products = [] ∧ ∃ c, validate_query query = .ok c) ∧
    ((pyStrip query).length = 0 → search_entry products query = .ok none) ∧
    ((pyStrip query).length ≠ 0 → products ≠ [] →
      search_entry products query =
        .ok (some ⟨((pyStrip query).data.take 500).filter
          (fun c => c ∉ ['<', '>', '"', '\''])⟩)) := by
  refine ⟨?_, ?_, ?_⟩
  · cases h : validate_query query with
    | error e => simp [search_entry, h]
    | ok c =>
      by_cases hp : products.isEmpty
      · simp [search_entry, h, hp, List.isEmpty_iff.mp hp]
      · have : products ≠ [] := fun he => hp (by simp [he])
        simp [search_entry, h, hp, this]
  · intro h
    by_cases hq : query = ""
    · simp [search_entry, validate_query, hq]
    · simp [search_entry, validate_query, hq, h]
  · intro h hp
    have hq : query ≠ "" := by
      intro hq
      exact h (by rw [hq]; rfl)
    have hpe : products.isEmpty = false := by
      cases products with
      | nil => exact absurd rfl hp
      | cons a l => rfl
    have hv : validate_query query =
        .ok ⟨((pyStrip query).data.take 500).filter
          (fun c => c ∉ ['<', '>', '"', '\''])⟩ := by
      unfold validate_query
      rw [if_neg hq, if_neg h]
      by_cases hl : (pyStrip query).length > 500
      · rw [if_pos hl]
      · rw [if_neg hl]
        have : (pyStrip query).data.take 500 = (pyStrip query).data :=
          List.take_of_length_le (Nat.le_of_not_lt hl)
        rw [this]
    simp [search_entry, hv, hpe]

/-- C4 (witness): a whitespace query on an uninitialized engine yields
the empty result, and a valid query on an initialized engine proceeds
with the sanitized text. -/
theorem search_error_c4_witness :
    search_entry ([()] : List Unit) " " = .ok none ∧
    search_entry ([()] : List Unit) "  hi<b> " = .ok (some "hib") := by
  constructor
  · exact (search_error_c4 ([()] : List Unit) " ").2.1 (by decide)
  · exact (search_error_c4 ([()] : List Unit) "  hi<b> ").2.2 (by decide) (by decide)

/-- C5 (counterexample): the query `"bluetooth wireless"` tokenizes to
two tokens; the parser consumes only the first, leaves the trailing
token behind, and still reports success — trailing tokens after a
complete expression are not a parse error. -/
theorem boolean_parse_c5_counterexample :
    tokenize_boolean_query "bluetooth wireless" = ["bluetooth", "wireless"] ∧
    parse_boolean_query "bluetooth wireless" =
      ⟨true, some (.term "bluetooth"), ["bluetooth", "wireless"], []⟩ :=
  ⟨rfl, rfl⟩

/-- C5 (amended): parsing reports a structured failure (`success = false`)
on malformed input such as unbalanced parentheses or an unexpected
operator token — though trailing tokens after a complete expression are
silently discarded, not rejected — and on every failure the fallback
terms are exactly the raw whitespace split of the query, which
`search_boolean` hands to keyword search; in particular
`"bluetooth AND (headphone OR speaker"` is rejected and falls back to
`["bluetooth","AND","(headphone","OR","speaker"]`. -/
theorem boolean_parse_c5 (query : String) :
    parse_boolean_query "bluetooth AND (headphone OR speaker" =
      ⟨false, none, [], ["bluetooth", "AND", "(headphone", "OR", "speaker"]⟩ ∧
    search_boolean_dispatch "bluetooth AND (headphone OR speaker" =
      .inl ["bluetooth", "AND", "(headphone", "OR", "speaker"] ∧
    ((parse_boolean_query query).success = false →
      (parse_boolean_query query).fallback_terms = pySplit query ∧
      search_boolean_dispatch query = .inl (pySplit query)) := by
  refine ⟨rfl, rfl, ?_⟩
  intro h
  cases hp : parse_expression (tokenize_boolean_query query) with
  | ok e =>
    exfalso
    have hs : (parse_boolean_query query).success = true := by
      simp [parse_boolean_query, hp]
    rw [h] at hs
    exact Bool.noConfusion hs
  | error msg =>
    have hq : parse_boolean_query query = ⟨false, none, [], pySplit query⟩ := by
      simp [parse_boolean_query, hp]
    exact ⟨by rw [hq], by simp [search_boolean_dispatch, hq]⟩

/-- C5 (witness): the single-token query `"AND"` hits the unexpected-token
failure and is handed to keyword search as its raw split. -/
theorem boolean_parse_c5_witness :
    (parse_boolean_query "AND").fallback_terms = pySplit "AND" ∧
    search_boolean_dispatch "AND" = .inl (pySplit "AND") :=
  (boolean_parse_c5 "AND").2.2 rfl

/-- The facet-branch test of `filter_by_facets` agrees with the claim's
"corresponding facet value is a member of the selected list" reading. -/
theorem matchesFacet_iff (p : Product) (name : String) (sel : List String) :
    matchesFacet p name sel = true ↔ ∃ v, facetValue p name = some v ∧ v ∈ sel := by
  unfold matchesFacet facetValue
  split_ifs <;> simp [List.contains, List.elem_iff]

/-- The filter loop accepts a product exactly when every non-empty facet
selection contains the product's corresponding facet value. -/
theorem matchesAllFilters_iff (p : Product) (filters : List (String × List String)) :
    matchesAllFilters p filters = true ↔
      ∀ f ∈ filters, f.2 ≠ [] → ∃ v, facetValue p f.1 = some v ∧ v ∈ f.2 := by
  unfold matchesAllFilters
  rw [List.all_eq_true]
  refine forall_congr' fun f => forall_congr' fun _ => ?_
  rw [Bool.or_eq_true, matchesFacet_iff]
  constructor
  · rintro (he | hv)
    · intro hne
      exact absurd (List.isEmpty_iff.mp he) hne
    · exact fun _ => hv
  · intro hi
    by_cases he : f.2 = []
    · exact Or.inl (by simp [he])
    · exact Or.inr (hi he)

/-- C9: `filterByFacets` keeps exactly the candidate ids whose document
satisfies, for every facet name appearing in `filters` with a non-empty
selected-value list, that the document's corresponding facet value is a
member of that list (OR within a facet's values, AND across facets);
facets with an empty selection impose no constraint, and an empty
`filters` mapping returns the candidate ids unchanged. -/
theorem facet_filter_c9 (products : List Product) (ids : Finset String)
    (filters : List (String × List String)) (x : String) :
    (filters = [] → filter_by_facets products ids filters = ids) ∧
    (filters ≠ [] →
      (x ∈ filter_by_facets products ids filters ↔
        x ∈ ids ∧ ∃ p ∈ products, product_id p = x ∧
          ∀ f ∈ filters, f.2 ≠ [] → ∃ v, facetValue p f.1 = some v ∧ v ∈ f.2)) := by
  constructor
  · intro h
    simp [filter_by_facets, h]
  · intro h
    unfold filter_by_facets
    rw [if_neg h, List.mem_toFinset, List.mem_map]
    constructor
    · rintro ⟨p, hp, rfl⟩
      rw [List.mem_filter, Bool.and_eq_true] at hp
      obtain ⟨hpp, hdec, hall⟩ := hp
      exact ⟨of_decide_eq_true hdec, p, hpp, rfl, (matchesAllFilters_iff p filters).mp hall⟩
    · rintro ⟨hx, p, hp, hpid, hall⟩
      refine ⟨p, ?_, hpid⟩
      rw [List.mem_filter, Bool.and_eq_true]
      refine ⟨hp, decide_eq_true (by rw [hpid]; exact hx), ?_⟩
      exact (matchesAllFilters_iff p filters).mpr hall

/-- C9 (witness): on the spec's worked example, filtering by
`{brand: [Samsung]}` keeps id 1 (a Samsung phone) and drops id 2 (an
Apple phone). -/
theorem facet_filter_c9_witness :
    "1" ∈ filter_by_facets exProducts exIds [("brand", ["Samsung"])] ∧
    "2" ∉ filter_by_facets exProducts exIds [("brand", ["Samsung"])] := by
  constructor
  · refine ((facet_filter_c9 exProducts exIds [("brand", ["Samsung"])] "1").2
      (by decide)).mpr ?_
    refine ⟨by decide, [("id", "1"), ("Brand", "Samsung"), ("Type", "Phone")],
      by decide, by decide, ?_⟩
    intro f hf _
    have hfe : f = ("brand", ["Samsung"]) := by simpa using hf
    subst hfe
    exact ⟨"Samsung", rfl, by decide⟩
  · intro hmem
    have h := ((facet_filter_c9 exProducts exIds [("brand", ["Samsung"])] "2").2
      (by decide)).mp hmem
    obtain ⟨-, p, hp, hpid, hall⟩ := h
    have hb := hall ("brand", ["Samsung"]) (by decide) (by decide)
    obtain ⟨v, hv, hvin⟩ := hb
    have hv' : v = pGet p "Brand" := by
      simpa [facetValue] using hv.symm
    subst hv'
    fin_cases hp <;> simp_all [product_id, pGet, List.find?]

/-- C10: a filters mapping containing any facet name outside the five
recognized ones (brand, type, category, price_range, has_specs) with a
non-empty selected-value list rejects every document, so `filterByFacets`
returns the empty set. -/
theorem facet_unknown_c10 (products : List Product) (ids : Finset String)
    (filters : List (String × List String)) (name : String) (sel : List String)
    (hmem : (name, sel) ∈ filters) (hne : sel ≠ [])
    (hname : name ∉ (["brand", "type", "category", "price_range", "has_specs"] : List String)) :
    filter_by_facets products ids filters = ∅ := by
  have hfil : filters ≠ [] := by
    rintro rfl
    simp at hmem
  have hmf : ∀ p : Product, matchesFacet p name sel = false := by
    intro p
    simp only [List.mem_cons, List.not_mem_nil, or_false, not_or] at hname
    obtain ⟨h1, h2, h3, h4, h5⟩ := hname
    unfold matchesFacet
    rw [if_neg h1, if_neg h2, if_neg h3, if_neg h4, if_neg h5]
  have hall : ∀ p : Product, matchesAllFilters p filters = false := by
    intro p
    cases hmfa : matchesAllFilters p filters with
    | false => rfl
    | true =>
      exfalso
      have := (List.all_eq_true.mp hmfa) (name, sel) hmem
      rw [Bool.or_eq_true] at this
      rcases this with he | hv
      · exact hne (List.isEmpty_iff.mp he)
      · rw [hmf p] at hv
        exact Bool.noConfusion hv
  unfold filter_by_facets
  rw [if_neg hfil]
  have : products.filter (fun p =>
      decide (product_id p ∈ ids) && matchesAllFilters p filters) = [] := by
    rw [List.filter_eq_nil_iff]
    intro p _
    rw [hall p, Bool.and_false]
    exact Bool.noConfusion
  rw [this]
  rfl

/-- C10 (witness): filtering the example products by the unrecognized
facet name `color` empties a non-empty candidate set. -/
theorem facet_unknown_c10_witness :
    filter_by_facets exProducts exIds [("color", ["red"])] = ∅ :=
  facet_unknown_c10 exProducts exIds [("color", ["red"])] "color" ["red"]
    (by decide) (by decide) (by decide)

/-- Looking up the assigned key after a dict assignment yields the new value. -/
theorem docGet_docSet_self (p : Doc) (k : String) (v : FieldVal) :
    docGet (docSet p k v) k = some v := by
  unfold docGet docSet
  rw [find?_setKey_self]
  rfl

/-- Dict assignment leaves every other key's lookup unchanged. -/
theorem docGet_docSet_other (p : Doc) (k : String) (v : FieldVal) (key : String)
    (h : key ≠ k) : docGet (docSet p k v) key = docGet p key := by
  unfold docGet docSet
  rw [find?_setKey_other p k v key h]

/-- Dict assignment keeps the key list, appending the key only when new. -/
theorem docKeys_docSet (p : Doc) (k : String) (v : FieldVal) :
    docKeys (docSet p k v) =
      if p.any (fun e => e.1 = k) then docKeys p else docKeys p ++ [k] := by
  unfold docKeys docSet
  exact keys_setKey p k v

/-- `MetaOnly` is reflexive. -/
theorem metaOnly_rfl (p : Doc) : MetaOnly p p :=
  ⟨fun _ _ => rfl, fun _ h => Or.inl h⟩

/-- `MetaOnly` composes. -/
theorem metaOnly_trans {p q r : Doc} (h : MetaOnly p q) (g : MetaOnly q r) :
    MetaOnly p r := by
  refine ⟨fun key hk => (g.1 key hk).trans (h.1 key hk), fun key hk => ?_⟩
  rcases g.2 key hk with hm | hm
  · exact h.2 key hm
  · exact Or.inr hm

/-- Assigning an underscore-prefixed key is a `MetaOnly` step. -/
theorem metaOnly_docSet (p : Doc) (k : String) (v : FieldVal)
    (hk : underscoreKey k = true) : MetaOnly p (docSet p k v) := by
  constructor
  · intro key hkey
    refine docGet_docSet_other p k v key ?_
    rintro rfl
    rw [hk] at hkey
    exact Bool.noConfusion hkey
  · intro key hkey
    rw [docKeys_docSet] at hkey
    by_cases hany : p.any (fun e => e.1 = k)
    · rw [if_pos hany] at hkey
      exact Or.inl hkey
    · rw [if_neg hany] at hkey
      rcases List.mem_append.mp hkey with hm | hm
      · exact Or.inl hm
      · rcases List.mem_singleton.mp hm with rfl
        exact Or.inr hk

/-- `setFirstWithId` keeps the store's length. -/
theorem setFirstWithId_length (pid : String) (upd : Doc → Doc) (l : List Doc) :
    (setFirstWithId pid upd l).length = l.length := by
  induction l with
  | nil => rfl
  | cons hd tl ih =>
    unfold setFirstWithId
    by_cases hid : docIdStr hd = some pid
    · rw [if_pos hid]
      rfl
    · rw [if_neg hid]
      simpa using ih

/-- `setFirstWithId` relates every position of the store by `MetaOnly`
when the update itself is `MetaOnly`. -/
theorem setFirstWithId_meta (pid : String) (upd : Doc → Doc)
    (h : ∀ p, MetaOnly p (upd p)) (l : List Doc) (i : Nat) :
    MetaOnly (l.getD i []) ((setFirstWithId pid upd l).getD i []) := by
  induction l generalizing i with
  | nil => exact metaOnly_rfl _
  | cons hd tl ih =>
    unfold setFirstWithId
    by_cases hid : docIdStr hd = some pid
    · rw [if_pos hid]
      cases i with
      | zero => simpa using h hd
      | succ n =>
        simp only [List.getD_cons_succ]
        exact metaOnly_rfl _
    · rw [if_neg hid]
      cases i with
      | zero => exact metaOnly_rfl _
      | succ n =>
        simp only [List.getD_cons_succ]
        exact ih n

/-- Folding `setFirstWithId` updates over a list of product ids keeps the
length and relates every position by `MetaOnly`. -/
theorem foldl_setFirst_meta (updOf : String → Doc → Doc)
    (h : ∀ pid p, MetaOnly p (updOf pid p)) (pids : List String) (l : List Doc) (i : Nat) :
    (pids.foldl (fun ps pid => setFirstWithId pid (updOf pid) ps) l).length = l.length ∧
    MetaOnly (l.getD i [])
      ((pids.foldl (fun ps pid => setFirstWithId pid (updOf pid) ps) l).getD i []) := by
  induction pids generalizing l with
  | nil => exact ⟨rfl, metaOnly_rfl _⟩
  | cons pid rest ih =>
    simp only [List.foldl_cons]
    obtain ⟨hlen, hm⟩ := ih (setFirstWithId pid (updOf pid) l)
    exact ⟨hlen.trans (setFirstWithId_length _ _ _),
      metaOnly_trans (setFirstWithId_meta pid (updOf pid) (h pid) l i) hm⟩

/-- C8 (counterexample): searching for "Phone x" adds a `_shard_id` field
to the stored document, and the Power Stone pass adds
`_power_optimized`, so stored documents are not left unchanged. -/
theorem document_mutation_c8_counterexample :
    docGet ((space_stone_mutation exIndex (fun _ => 0) "Phone x" exStore).getD 0 [])
      "_shard_id" = some (.nat 0) ∧
    docGet (exStore.getD 0 []) "_shard_id" = none ∧
    docGet (power_stone_mutation "q" (exStore.getD 0 [])) "_power_optimized" =
      some (.bool true) ∧
    docGet (exStore.getD 0 []) "_power_optimized" = none := by
  decide

/-- C8 (amended): the Space Stone and Power Stone stages touch stored
documents only by writing underscore-prefixed metadata fields
(`_shard_id`, `_shard_hits`, `_power_optimized`, `_query_processed`):
the store keeps its length, every non-underscore field's lookup is
unchanged (none added, removed or modified), and every new field name
starts with an underscore. -/
theorem document_mutation_c8 (index : List (String × List String)) (shardOf : String → Nat)
    (query : String) (products : List Doc) (i : Nat) (key : String) (p : Doc) :
    (space_stone_mutation index shardOf query products).length = products.length ∧
    (underscoreKey key = false →
      docGet ((space_stone_mutation index shardOf query products).getD i []) key =
        docGet (products.getD i []) key) ∧
    (key ∈ docKeys ((space_stone_mutation index shardOf query products).getD i []) →
      key ∈ docKeys (products.getD i []) ∨ underscoreKey key = true) ∧
    (underscoreKey key = false →
      docGet (power_stone_mutation query p) key = docGet p key) ∧
    (key ∈ docKeys (power_stone_mutation query p) →
      key ∈ docKeys p ∨ underscoreKey key = true) := by
  have hpow : MetaOnly p (power_stone_mutation query p) :=
    metaOnly_trans (metaOnly_docSet p "_power_optimized" (.bool true) (by decide))
      (metaOnly_docSet _ "_query_processed" (.str query) (by decide))
  have hupd : ∀ pid q, MetaOnly q
      (docSet (docSet q "_shard_id" (.nat (shardOf pid))) "_shard_hits"
        (.nat (assocGetNat
          (spaceScan index shardOf (wordTokens (lowerStr query))).2 (shardOf pid)))) :=
    fun pid q =>
      metaOnly_trans (metaOnly_docSet q "_shard_id" _ (by decide))
        (metaOnly_docSet _ "_shard_hits" _ (by decide))
  have heq : space_stone_mutation index shardOf query products =
      ((spaceScan index shardOf (wordTokens (lowerStr query))).1.map Prod.fst).foldl
        (fun ps pid =>
          setFirstWithId pid
            (fun q => docSet (docSet q "_shard_id" (.nat (shardOf pid))) "_shard_hits"
              (.nat (assocGetNat
                (spaceScan index shardOf (wordTokens (lowerStr query))).2 (shardOf pid)))) ps)
        products := rfl
  obtain ⟨hlen, hmeta⟩ := foldl_setFirst_meta _ hupd
    ((spaceScan index shardOf (wordTokens (lowerStr query))).1.map Prod.fst) products i
  rw [heq]
  exact ⟨hlen, hmeta.1 key, hmeta.2 key, hpow.1 key, hpow.2 key⟩

/-- C8 (witness): on the one-document store, the `Name` field is
untouched by both embedded stages. -/
theorem document_mutation_c8_witness :
    docGet ((space_stone_mutation exIndex (fun _ => 0) "phone" exStore).getD 0 []) "Name" =
      docGet (exStore.getD 0 []) "Name" ∧
    docGet (power_stone_mutation "phone" (exStore.getD 0 [])) "Name" =
      docGet (exStore.getD 0 []) "Name" := by
  have h := document_mutation_c8 exIndex (fun _ => 0) "phone" exStore 0 "Name"
    (exStore.getD 0 [])
  exact ⟨h.2.1 (by decide), h.2.2.2.1 (by decide)⟩

/-! ### Cache lemmas (C2, C3) -/

namespace LRUCache

variable {V : Type}

/-- `get` on an absent key: record a miss, return not-found. -/
theorem get_eq_absent (s : LRUCache V) (now : Int) (key : String)
    (hfind : s.cache.find? (fun p => p.1 = key) = none) :
    s.get now key = (none, { s with misses := s.misses + 1 }) := by
  unfold get
  rw [hfind]

/-- `get` on a present but expired key: evict it and record a miss. -/
theorem get_eq_expired (s : LRUCache V) (now : Int) (key : String)
    (entry : String × V) (hfind : s.cache.find? (fun p => p.1 = key) = some entry)
    (hexp : now - s.timeOf key > s.ttl) :
    s.get now key = (none, { s.remove key with misses := s.misses + 1 }) := by
  unfold get
  rw [hfind]
  dsimp only
  rw [if_pos hexp]

/-- `get` on a present, unexpired key: move it to the most-recently-used
end, stamp it with `now`, record a hit, return the stored value. -/
theorem get_eq_live (s : LRUCache V) (now : Int) (key : String)
    (entry : String × V) (hfind : s.cache.find? (fun p => p.1 = key) = some entry)
    (hexp : ¬ now - s.timeOf key > s.ttl) :
    s.get now key = (some entry.2,
      { s with
        cache := s.cache.filter (fun p => p.1 ≠ key) ++ [(key, entry.2)],
        access_times := setKey s.access_times key now,
        hits := s.hits + 1 }) := by
  unfold get
  rw [hfind]
  dsimp only
  rw [if_neg hexp]

/-- `put` on a present key: move it to the end with the new value. -/
theorem put_eq_present (s : LRUCache V) (now : Int) (key : String) (value : V)
    (hk : s.hasKey key = true) :
    s.put now key value = some
      { s with
        cache := s.cache.filter (fun p => p.1 ≠ key) ++ [(key, value)],
        access_times := setKey s.access_times key now } := by
  unfold put
  rw [if_pos hk]

/-- `put` of a fresh key at capacity with a non-empty cache: evict the
front (least recently used) entry, count the eviction, insert at the end. -/
theorem put_eq_evict (s : LRUCache V) (now : Int) (key : String) (value : V)
    (oldest : String × V) (rest : List (String × V))
    (hk : s.hasKey key = false) (hc : s.cache = oldest :: rest)
    (hsz : s.cache.length ≥ s.max_size) :
    s.put now key value = some
      ⟨s.max_size, s.ttl,
        (s.remove oldest.1).cache ++ [(key, value)],
        setKey (s.remove oldest.1).access_times key now,
        s.hits, s.misses, s.evictions + 1⟩ := by
  unfold put
  rw [if_neg (by rw [hk]; exact Bool.false_ne_true), if_pos hsz, hc]
  rfl

/-- The cache list after `_remove` is the key filter. -/
theorem remove_cache (s : LRUCache V) (key : String) :
    (s.remove key).cache = s.cache.filter (fun p => p.1 ≠ key) := rfl

/-- The access-times list after `_remove` is the key filter. -/
theorem remove_access_times (s : LRUCache V) (key : String) :
    (s.remove key).access_times = s.access_times.filter (fun p => p.1 ≠ key) := rfl

/-- `put` of a fresh key at capacity with an empty cache (only possible
when `max_size = 0`): the Python raises `StopIteration`. -/
theorem put_eq_stuck (s : LRUCache V) (now : Int) (key : String) (value : V)
    (hk : s.hasKey key = false) (hc : s.cache = [])
    (hsz : s.cache.length ≥ s.max_size) :
    s.put now key value = none := by
  unfold put
  rw [if_neg (by rw [hk]; exact Bool.false_ne_true), if_pos hsz, hc]

/-- `put` of a fresh key below capacity: append at the end. -/
theorem put_eq_fresh (s : LRUCache V) (now : Int) (key : String) (value : V)
    (hk : s.hasKey key = false) (hsz : ¬ s.cache.length ≥ s.max_size) :
    s.put now key value = some
      { s with
        cache := s.cache ++ [(key, value)],
        access_times := setKey s.access_times key now } := by
  unfold put
  rw [if_neg (by rw [hk]; exact Bool.false_ne_true), if_neg hsz]

end LRUCache

/-- Removing one present key from a keywise-nodup association list drops
exactly one entry. -/
theorem keyFilter_length {V : Type} (l : List (String × V)) (key : String)
    (hnd : (l.map Prod.fst).Nodup) (hmem : l.any (fun p => p.1 = key) = true) :
    (l.filter (fun p => p.1 ≠ key)).length + 1 = l.length := by
  induction l with
  | nil => simp at hmem
  | cons hd tl ih =>
    rw [List.map_cons, List.nodup_cons] at hnd
    obtain ⟨hhd, htl⟩ := hnd
    simp only [List.filter_cons]
    by_cases hh : hd.1 = key
    · rw [if_neg (by simpa using hh)]
      have heq : tl.filter (fun p => p.1 ≠ key) = tl := by
        rw [List.filter_eq_self]
        intro a ha
        refine decide_eq_true ?_
        intro hak
        exact hhd (List.mem_map.mpr ⟨a, ha, by rw [hak, ← hh]⟩)
      rw [heq]
      simp
    · have hmem' : tl.any (fun p => p.1 = key) = true := by
        rcases List.any_eq_true.mp hmem with ⟨x, hx, hpx⟩
        rcases List.mem_cons.mp hx with rfl | hx2
        · exact absurd (of_decide_eq_true hpx) hh
        · exact List.any_eq_true.mpr ⟨x, hx2, hpx⟩
      rw [if_pos (by simpa using hh)]
      simp only [List.length_cons]
      rw [← ih htl hmem']

/-- The filtered-out key does not appear among the remaining keys. -/
theorem key_notin_keyFilter {V : Type} (l : List (String × V)) (key : String) :
    key ∉ (l.filter (fun p => p.1 ≠ key)).map Prod.fst := by
  intro hmem
  rcases List.mem_map.mp hmem with ⟨p, hp, hpk⟩
  rcases List.mem_filter.mp hp with ⟨-, hne⟩
  exact (of_decide_eq_true hne) hpk

/-- Keys of a key filter stay nodup. -/
theorem keyFilter_keys_nodup {V : Type} (l : List (String × V)) (Q : String × V → Bool)
    (hnd : (l.map Prod.fst).Nodup) : ((l.filter Q).map Prod.fst).Nodup :=
  hnd.sublist (List.Sublist.map Prod.fst (List.filter_sublist l))

/-- Every cache operation preserves well-formedness: distinct keys and
the capacity bound. -/
theorem lru_wf_step {V : Type} (op : LRUCache.Op V) (s : LRUCache V)
    (h : LRUCache.WF s) : LRUCache.WF (LRUCache.step op s) := by
  obtain ⟨hnd, hsz⟩ := h
  cases op with
  | get now key =>
    show LRUCache.WF (s.get now key).2
    cases hfind : s.cache.find? (fun p => p.1 = key) with
    | none =>
      rw [LRUCache.get_eq_absent s now key hfind]
      exact ⟨hnd, hsz⟩
    | some entry =>
      by_cases hexp : now - s.timeOf key > s.ttl
      · rw [LRUCache.get_eq_expired s now key entry hfind hexp]
        exact ⟨keyFilter_keys_nodup _ _ hnd, (List.length_filter_le _ _).trans hsz⟩
      · rw [LRUCache.get_eq_live s now key entry hfind hexp]
        have h1 := List.mem_of_find?_eq_some hfind
        have h2 := List.find?_some hfind
        have hmem : s.cache.any (fun p => p.1 = key) = true :=
          List.any_eq_true.mpr ⟨entry, h1, h2⟩
        constructor
        · show ((s.cache.filter (fun p => p.1 ≠ key) ++ [(key, entry.2)]).map
            Prod.fst).Nodup
          rw [List.map_append, List.nodup_append]
          refine ⟨keyFilter_keys_nodup _ _ hnd, by simp, fun a ha hb => ?_⟩
          have hak : a = key := by simpa using hb
          rw [hak] at ha
          exact key_notin_keyFilter s.cache key ha
        · show (s.cache.filter (fun p => p.1 ≠ key) ++ [(key, entry.2)]).length ≤
            s.max_size
          rw [List.length_append]
          have := keyFilter_length s.cache key hnd hmem
          simp only [List.length_singleton]
          omega
  | put now key value =>
    show LRUCache.WF ((s.put now key value).getD s)
    by_cases hk : s.hasKey key
    · rw [LRUCache.put_eq_present s now key value hk, Option.getD_some]
      have hmem : s.cache.any (fun p => p.1 = key) = true := hk
      constructor
      · show ((s.cache.filter (fun p => p.1 ≠ key) ++ [(key, value)]).map Prod.fst).Nodup
        rw [List.map_append, List.nodup_append]
        refine ⟨keyFilter_keys_nodup _ _ hnd, by simp, fun a ha hb => ?_⟩
        have hak : a = key := by simpa using hb
        rw [hak] at ha
        exact key_notin_keyFilter s.cache key ha
      · show (s.cache.filter (fun p => p.1 ≠ key) ++ [(key, value)]).length ≤ s.max_size
        rw [List.length_append]
        have := keyFilter_length s.cache key hnd hmem
        simp only [List.length_singleton]
        omega
    · have hk' : s.hasKey key = false := by
        cases hke : s.hasKey key with
        | false => rfl
        | true => exact absurd hke hk
      by_cases hcap : s.cache.length ≥ s.max_size
      · cases hc : s.cache with
        | nil =>
          rw [LRUCache.put_eq_stuck s now key value hk' hc hcap]
          exact ⟨hnd, hsz⟩
        | cons oldest rest =>
          rw [LRUCache.put_eq_evict s now key value oldest rest hk' hc hcap,
            Option.getD_some]
          have hmem : s.cache.any (fun p => p.1 = oldest.1) = true :=
            List.any_eq_true.mpr ⟨oldest, by rw [hc]; exact List.mem_cons_self _ _,
              by simp⟩
          constructor
          · show (((s.remove oldest.1).cache ++ [(key, value)]).map Prod.fst).Nodup
            rw [LRUCache.remove_cache, List.map_append, List.nodup_append]
            refine ⟨keyFilter_keys_nodup _ _ hnd, by simp, fun a ha hb => ?_⟩
            have hak : a = key := by simpa using hb
            rw [hak] at ha
            rcases List.mem_map.mp ha with ⟨p, hp, hpk⟩
            have hpc : p ∈ s.cache := (List.mem_filter.mp hp).1
            have hany : s.cache.any (fun q => q.1 = key) = true :=
              List.any_eq_true.mpr ⟨p, hpc, by simp [hpk, hak]⟩
            rw [show s.hasKey key = s.cache.any (fun q => q.1 = key) from rfl, hany]
              at hk'
            exact Bool.noConfusion hk'
          · show ((s.remove oldest.1).cache ++ [(key, value)]).length ≤ s.max_size
            rw [LRUCache.remove_cache, List.length_append]
            have := keyFilter_length s.cache oldest.1 hnd hmem
            simp only [List.length_singleton]
            omega
      · rw [LRUCache.put_eq_fresh s now key value hk' hcap, Option.getD_some]
        constructor
        · show ((s.cache ++ [(key, value)]).map Prod.fst).Nodup
          rw [List.map_append, List.nodup_append]
          refine ⟨hnd, by simp, fun a ha hb => ?_⟩
          have hak : a = key := by simpa using hb
          rw [hak] at ha
          rcases List.mem_map.mp ha with ⟨p, hp, hpk⟩
          have hany : s.cache.any (fun q => q.1 = key) = true :=
            List.any_eq_true.mpr ⟨p, hp, by simp [hpk, hak]⟩
          rw [show s.hasKey key = s.cache.any (fun q => q.1 = key) from rfl, hany]
            at hk'
          exact Bool.noConfusion hk'
        · show (s.cache ++ [(key, value)]).length ≤ s.max_size
          rw [List.length_append]
          simp only [List.length_singleton]
          omega
  | cleanup now =>
    show LRUCache.WF (s.cleanup_expired now).2
    exact ⟨keyFilter_keys_nodup _ _ hnd, (List.length_filter_le _ _).trans hsz⟩

/-- Well-formedness holds along any run from a fresh cache. -/
theorem lru_wf_runOps {V : Type} (ops : List (LRUCache.Op V)) (s : LRUCache V)
    (h : LRUCache.WF s) : LRUCache.WF (LRUCache.runOps ops s) := by
  induction ops generalizing s with
  | nil => exact h
  | cons op rest ih => exact ih _ (lru_wf_step op s h)

/-- `timeOf` reads only the access-times list: a filter that keeps every
entry of the key leaves it unchanged. -/
theorem timeOf_access_filter {V : Type} (s₂ s : LRUCache V) (P : String × Int → Bool)
    (hat : s₂.access_times = s.access_times.filter P) (k : String)
    (hkeep : ∀ p : String × Int, p.1 = k → P p = true) :
    s₂.timeOf k = s.timeOf k := by
  unfold LRUCache.timeOf
  rw [hat, find?_filter_of_key_kept s.access_times P k hkeep]

/-- `timeOf` of the freshly stamped key is the stamping time. -/
theorem timeOf_access_setKey_self {V : Type} (s₂ s : LRUCache V) (key : String)
    (now : Int) (hat : s₂.access_times = setKey s.access_times key now) :
    s₂.timeOf key = now := by
  unfold LRUCache.timeOf
  rw [hat, find?_setKey_self]

/-- `timeOf` of any other key is untouched by a stamp. -/
theorem timeOf_access_setKey_other {V : Type} (s₂ s : LRUCache V) (key : String)
    (now : Int) (k : String) (hat : s₂.access_times = setKey s.access_times key now)
    (hk : k ≠ key) : s₂.timeOf k = s.timeOf k := by
  unfold LRUCache.timeOf
  rw [hat, find?_setKey_other s.access_times key now k hk]

/-- `timeOf` of a key distinct from both the evicted key and the stamped
key survives an eviction followed by a stamp. -/
theorem timeOf_access_setKey_filter_other {V : Type} (s₂ s : LRUCache V)
    (key old : String) (now : Int) (k : String)
    (hat : s₂.access_times =
      setKey (s.access_times.filter (fun p => p.1 ≠ old)) key now)
    (hk : k ≠ key) (hko : k ≠ old) : s₂.timeOf k = s.timeOf k := by
  unfold LRUCache.timeOf
  rw [hat, find?_setKey_other _ key now k hk,
    find?_filter_of_key_kept s.access_times _ k
      (fun p hp => decide_eq_true (by rw [hp]; exact hko))]

/-- Pairwise boundedness is stable under a pointwise-equal measure. -/
theorem pairwise_le_congr {α : Type} (l : List α) (f g : α → Int)
    (hcong : ∀ a ∈ l, g a = f a)
    (hp : l.Pairwise (fun x y => f x ≤ f y)) :
    l.Pairwise (fun x y => g x ≤ g y) := by
  induction l with
  | nil => exact List.Pairwise.nil
  | cons hd tl ih =>
    rcases List.pairwise_cons.mp hp with ⟨hh, ht⟩
    refine List.pairwise_cons.mpr
      ⟨?_, ih (fun a ha => hcong a (List.mem_cons_of_mem _ ha)) ht⟩
    intro b hb
    rw [hcong hd (List.mem_cons_self _ _), hcong b (List.mem_cons_of_mem _ hb)]
    exact hh b hb

/-- Sorted access times restrict to a sublist under a measure that agrees
on the sublist's members. -/
theorem pairwise_times_congr_sublist {V : Type} (l₁ l₂ : List (String × V))
    (f g : String → Int) (hsub : l₁.Sublist l₂) (hcong : ∀ p ∈ l₁, g p.1 = f p.1)
    (hp : (l₂.map (fun p => f p.1)).Pairwise (fun a b => a ≤ b)) :
    (l₁.map (fun p => g p.1)).Pairwise (fun a b => a ≤ b) := by
  rw [List.pairwise_map] at hp ⊢
  exact pairwise_le_congr l₁ (fun p => f p.1) (fun p => g p.1) hcong (hp.sublist hsub)

/-- Appending one entry whose time dominates keeps the times sorted. -/
theorem pairwise_times_append_one {V : Type} (l : List (String × V))
    (g : String → Int) (x : String × V)
    (hp : (l.map (fun p => g p.1)).Pairwise (fun a b => a ≤ b))
    (hub : ∀ p ∈ l, g p.1 ≤ g x.1) :
    ((l ++ [x]).map (fun p => g p.1)).Pairwise (fun a b => a ≤ b) := by
  rw [List.map_append, List.pairwise_append]
  refine ⟨hp, by simp, ?_⟩
  intro a ha b hb
  rcases List.mem_map.mp ha with ⟨p, hpl, rfl⟩
  have hbx : b = g x.1 := by simpa using hb
  rw [hbx]
  exact hub p hpl

/-- Every cache operation performed at a time `now` no earlier than any
recorded access time keeps the cache list sorted by last access — the
front entry stays the least recently used one. -/
theorem lru_recency_step {V : Type} (op : LRUCache.Op V) (s : LRUCache V)
    (hro : LRUCache.recencyOrdered s)
    (hub : LRUCache.upperBound s (LRUCache.opTime op)) :
    LRUCache.recencyOrdered (LRUCache.step op s) := by
  cases op with
  | get now key =>
    have hub' : ∀ p ∈ s.cache, s.timeOf p.1 ≤ now := hub
    show LRUCache.recencyOrdered (s.get now key).2
    cases hfind : s.cache.find? (fun p => p.1 = key) with
    | none =>
      rw [LRUCache.get_eq_absent s now key hfind]
      exact hro
    | some entry =>
      by_cases hexp : now - s.timeOf key > s.ttl
      · rw [LRUCache.get_eq_expired s now key entry hfind hexp]
        show ((s.cache.filter (fun p => p.1 ≠ key)).map
          (fun p => ({ s.remove key with misses := s.misses + 1 } :
            LRUCache V).timeOf p.1)).Pairwise (fun a b => a ≤ b)
        refine pairwise_times_congr_sublist _ s.cache (fun k => s.timeOf k) _
          (List.filter_sublist _) ?_ hro
        intro p hp
        have hpk : p.1 ≠ key := of_decide_eq_true (List.mem_filter.mp hp).2
        exact timeOf_access_filter _ s _ rfl p.1
          (fun q hq => decide_eq_true (by rw [hq]; exact hpk))
      · rw [LRUCache.get_eq_live s now key entry hfind hexp]
        show (((s.cache.filter (fun p => p.1 ≠ key) ++ [(key, entry.2)]).map
          (fun p => ({ s with
            cache := s.cache.filter (fun p => p.1 ≠ key) ++ [(key, entry.2)],
            access_times := setKey s.access_times key now,
            hits := s.hits + 1 } : LRUCache V).timeOf p.1))).Pairwise (fun a b => a ≤ b)
        refine pairwise_times_append_one _ _ _ ?_ ?_
        · refine pairwise_times_congr_sublist _ s.cache (fun k => s.timeOf k) _
            (List.filter_sublist _) ?_ hro
          intro p hp
          have hpk : p.1 ≠ key := of_decide_eq_true (List.mem_filter.mp hp).2
          exact timeOf_access_setKey_other _ s key now p.1 rfl hpk
        · intro p hp
          have hpk : p.1 ≠ key := of_decide_eq_true (List.mem_filter.mp hp).2
          have h1 := timeOf_access_setKey_other
            ({ s with
              cache := s.cache.filter (fun p => p.1 ≠ key) ++ [(key, entry.2)],
              access_times := setKey s.access_times key now,
              hits := s.hits + 1 } : LRUCache V) s key now p.1 rfl hpk
          have h2 := timeOf_access_setKey_self
            ({ s with
              cache := s.cache.filter (fun p => p.1 ≠ key) ++ [(key, entry.2)],
              access_times := setKey s.access_times key now,
              hits := s.hits + 1 } : LRUCache V) s key now rfl
          rw [h1, h2]
          exact hub' p (List.mem_of_mem_filter hp)
  | put now key value =>
    have hub' : ∀ p ∈ s.cache, s.timeOf p.1 ≤ now := hub
    show LRUCache.recencyOrdered ((s.put now key value).getD s)
    by_cases hk : s.hasKey key
    · rw [LRUCache.put_eq_present s now key value hk, Option.getD_some]
      show (((s.cache.filter (fun p => p.1 ≠ key) ++ [(key, value)]).map
        (fun p => ({ s with
          cache := s.cache.filter (fun p => p.1 ≠ key) ++ [(key, value)],
          access_times := setKey s.access_times key now } :
            LRUCache V).timeOf p.1))).Pairwise (fun a b => a ≤ b)
      refine pairwise_times_append_one _ _ _ ?_ ?_
      · refine pairwise_times_congr_sublist _ s.cache (fun k => s.timeOf k) _
          (List.filter_sublist _) ?_ hro
        intro p hp
        have hpk : p.1 ≠ key := of_decide_eq_true (List.mem_filter.mp hp).2
        exact timeOf_access_setKey_other _ s key now p.1 rfl hpk
      · intro p hp
        have hpk : p.1 ≠ key := of_decide_eq_true (List.mem_filter.mp hp).2
        have h1 := timeOf_access_setKey_other
          ({ s with
            cache := s.cache.filter (fun p => p.1 ≠ key) ++ [(key, value)],
            access_times := setKey s.access_times key now } : LRUCache V)
          s key now p.1 rfl hpk
        have h2 := timeOf_access_setKey_self
          ({ s with
            cache := s.cache.filter (fun p => p.1 ≠ key) ++ [(key, value)],
            access_times := setKey s.access_times key now } : LRUCache V)
          s key now rfl
        rw [h1, h2]
        exact hub' p (List.mem_of_mem_filter hp)
    · have hk' : s.hasKey key = false := by
        cases hke : s.hasKey key with
        | false => rfl
        | true => exact absurd hke hk
      have hfresh : ∀ p ∈ s.cache, p.1 ≠ key := by
        intro p hp hpk
        have : s.cache.any (fun q => q.1 = key) = true :=
          List.any_eq_true.mpr ⟨p, hp, by simp [hpk]⟩
        rw [show s.hasKey key = s.cache.any (fun q => q.1 = key) from rfl, this] at hk'
        exact Bool.noConfusion hk'
      by_cases hcap : s.cache.length ≥ s.max_size
      · cases hc : s.cache with
        | nil =>
          rw [LRUCache.put_eq_stuck s now key value hk' hc hcap]
          exact hro
        | cons oldest rest =>
          rw [LRUCache.put_eq_evict s now key value oldest rest hk' hc hcap,
            Option.getD_some]
          show (((s.remove oldest.1).cache ++ [(key, value)]).map
            (fun p => (⟨s.max_size, s.ttl,
              (s.remove oldest.1).cache ++ [(key, value)],
              setKey (s.remove oldest.1).access_times key now,
              s.hits, s.misses, s.evictions + 1⟩ : LRUCache V).timeOf p.1)).Pairwise
            (fun a b => a ≤ b)
          refine pairwise_times_append_one _ _ _ ?_ ?_
          · rw [LRUCache.remove_cache]
            refine pairwise_times_congr_sublist _ s.cache (fun k => s.timeOf k) _
              (List.filter_sublist _) ?_ hro
            intro p hp
            have hpo : p.1 ≠ oldest.1 := of_decide_eq_true (List.mem_filter.mp hp).2
            have hpk : p.1 ≠ key := hfresh p (List.mem_of_mem_filter hp)
            exact timeOf_access_setKey_filter_other _ s key oldest.1 now p.1 rfl hpk hpo
          · intro p hp
            rw [LRUCache.remove_cache] at hp
            have hpo : p.1 ≠ oldest.1 := of_decide_eq_true (List.mem_filter.mp hp).2
            have hpk : p.1 ≠ key := hfresh p (List.mem_of_mem_filter hp)
            have h1 := timeOf_access_setKey_filter_other
              (⟨s.max_size, s.ttl, (s.remove oldest.1).cache ++ [(key, value)],
                setKey (s.remove oldest.1).access_times key now,
                s.hits, s.misses, s.evictions + 1⟩ : LRUCache V)
              s key oldest.1 now p.1 rfl hpk hpo
            have h2 := timeOf_access_setKey_self
              (⟨s.max_size, s.ttl, (s.remove oldest.1).cache ++ [(key, value)],
                setKey (s.remove oldest.1).access_times key now,
                s.hits, s.misses, s.evictions + 1⟩ : LRUCache V)
              (s.remove oldest.1) key now rfl
            rw [h1, h2]
            exact hub' p (List.mem_of_mem_filter hp)
      · rw [LRUCache.put_eq_fresh s now key value hk' hcap, Option.getD_some]
        show (((s.cache ++ [(key, value)]).map
          (fun p => ({ s with
            cache := s.cache ++ [(key, value)],
            access_times := setKey s.access_times key now } :
              LRUCache V).timeOf p.1))).Pairwise (fun a b => a ≤ b)
        refine pairwise_times_append_one _ _ _ ?_ ?_
        · refine pairwise_times_congr_sublist _ s.cache (fun k => s.timeOf k) _
            (List.Sublist.refl _) ?_ hro
          intro p hp
          exact timeOf_access_setKey_other _ s key now p.1 rfl (hfresh p hp)
        · intro p hp
          have h1 := timeOf_access_setKey_other
            ({ s with
              cache := s.cache ++ [(key, value)],
              access_times := setKey s.access_times key now } : LRUCache V)
            s key now p.1 rfl (hfresh p hp)
          have h2 := timeOf_access_setKey_self
            ({ s with
              cache := s.cache ++ [(key, value)],
              access_times := setKey s.access_times key now } : LRUCache V)
            s key now rfl
          rw [h1, h2]
          exact hub' p hp
  | cleanup now =>
    show LRUCache.recencyOrdered (s.cleanup_expired now).2
    refine pairwise_times_congr_sublist _ s.cache (fun k => s.timeOf k) _
      (List.filter_sublist _) ?_ hro
    intro p hp
    have hpk := (List.mem_filter.mp hp).2
    refine timeOf_access_filter _ s _ rfl p.1 (fun q hq => ?_)
    simpa [hq] using hpk

/-- No operation changes the configured capacity. -/
theorem lru_step_max_size {V : Type} (op : LRUCache.Op V) (s : LRUCache V) :
    (LRUCache.step op s).max_size = s.max_size := by
  cases op with
  | get now key =>
    show ((s.get now key).2).max_size = s.max_size
    cases hfind : s.cache.find? (fun p => p.1 = key) with
    | none => rw [LRUCache.get_eq_absent s now key hfind]
    | some entry =>
      by_cases hexp : now - s.timeOf key > s.ttl
      · rw [LRUCache.get_eq_expired s now key entry hfind hexp]
        rfl
      · rw [LRUCache.get_eq_live s now key entry hfind hexp]
  | put now key value =>
    show ((s.put now key value).getD s).max_size = s.max_size
    by_cases hk : s.hasKey key
    · rw [LRUCache.put_eq_present s now key value hk, Option.getD_some]
    · have hk' : s.hasKey key = false := by
        cases hke : s.hasKey key with
        | false => rfl
        | true => exact absurd hke hk
      by_cases hcap : s.cache.length ≥ s.max_size
      · cases hc : s.cache with
        | nil =>
          rw [LRUCache.put_eq_stuck s now key value hk' hc hcap]
          rfl
        | cons oldest rest =>
          rw [LRUCache.put_eq_evict s now key value oldest rest hk' hc hcap,
            Option.getD_some]
      · rw [LRUCache.put_eq_fresh s now key value hk' hcap, Option.getD_some]
  | cleanup now => rfl

/-- The configured capacity is constant along any run. -/
theorem lru_runOps_max_size {V : Type} (ops : List (LRUCache.Op V)) (s : LRUCache V) :
    (LRUCache.runOps ops s).max_size = s.max_size := by
  induction ops generalizing s with
  | nil => rfl
  | cons op rest ih => exact (ih (LRUCache.step op s)).trans (lru_step_max_size op s)

/-- C2: over every operation sequence the cache never exceeds its
configured capacity; a put of an absent key at capacity evicts exactly
the front entry — the least-recently-used one, whose recorded access
time is minimal — and increments the eviction counter while keeping the
size at capacity; a put of a present key refreshes value and recency
without evicting; and the order invariant backing "front = LRU" is
preserved by every operation whose clock reading is no earlier than the
recorded times. -/
theorem lru_capacity_eviction_c2 {V : Type} (max_size : Nat) (ttl : Int)
    (ops : List (LRUCache.Op V)) (s : LRUCache V) (now : Int) (key : String)
    (value : V) :
    ((LRUCache.runOps ops (LRUCache.init V max_size ttl)).cache.length ≤ max_size) ∧
    ((s.cache.map Prod.fst).Nodup → s.hasKey key = false →
      s.cache.length = s.max_size → ∀ oldest rest, s.cache = oldest :: rest →
      ∃ s', s.put now key value = some s' ∧
        s'.cache = rest ++ [(key, value)] ∧
        s'.evictions = s.evictions + 1 ∧
        s'.cache.length = s.max_size ∧
        (∀ q ∈ s'.cache, q.1 ≠ oldest.1) ∧
        (LRUCache.recencyOrdered s → ∀ q ∈ s.cache,
          s.timeOf oldest.1 ≤ s.timeOf q.1)) ∧
    ((s.cache.map Prod.fst).Nodup → s.hasKey key = true →
      ∃ s', s.put now key value = some s' ∧
        s'.cache = s.cache.filter (fun p => p.1 ≠ key) ++ [(key, value)] ∧
        s'.evictions = s.evictions ∧
        s'.cache.length = s.cache.length) ∧
    (∀ op : LRUCache.Op V, LRUCache.recencyOrdered s →
      LRUCache.upperBound s (LRUCache.opTime op) →
      LRUCache.recencyOrdered (LRUCache.step op s)) := by
  refine ⟨?_, ?_, ?_, fun op => lru_recency_step op s⟩
  · have hwf := (lru_wf_runOps ops (LRUCache.init V max_size ttl)
      ⟨by simp [LRUCache.init], by simp [LRUCache.init]⟩).2
    rwa [lru_runOps_max_size] at hwf
  · intro hnd hk hsz oldest rest hc
    have hcap : s.cache.length ≥ s.max_size := ge_of_eq hsz
    have hrest : ∀ p ∈ rest, p.1 ≠ oldest.1 := by
      intro p hp hpo
      rw [hc, List.map_cons, List.nodup_cons] at hnd
      exact hnd.1 (List.mem_map.mpr ⟨p, hp, hpo⟩)
    have hfe : s.cache.filter (fun p => p.1 ≠ oldest.1) = rest := by
      rw [hc]
      simp only [List.filter_cons]
      rw [if_neg (by simp)]
      rw [List.filter_eq_self]
      exact fun a ha => decide_eq_true (hrest a ha)
    have hko : key ≠ oldest.1 := by
      intro hkey
      have : s.cache.any (fun q => q.1 = key) = true :=
        List.any_eq_true.mpr ⟨oldest, by rw [hc]; exact List.mem_cons_self _ _,
          by simp [hkey]⟩
      rw [show s.hasKey key = s.cache.any (fun q => q.1 = key) from rfl, this] at hk
      exact Bool.noConfusion hk
    refine ⟨_, LRUCache.put_eq_evict s now key value oldest rest hk hc hcap,
      ?_, rfl, ?_, ?_, ?_⟩
    · show (s.remove oldest.1).cache ++ [(key, value)] = rest ++ [(key, value)]
      rw [LRUCache.remove_cache, hfe]
    · show ((s.remove oldest.1).cache ++ [(key, value)]).length = s.max_size
      rw [LRUCache.remove_cache, hfe, List.length_append]
      rw [hc] at hsz
      simpa using hsz
    · intro q hq
      rcases List.mem_append.mp
        (by rw [LRUCache.remove_cache, hfe] at hq; exact hq) with hq1 | hq1
      · exact hrest q hq1
      · rcases List.mem_singleton.mp hq1 with rfl
        exact hko
    · intro hro q hq
      have hro' := hro
      unfold LRUCache.recencyOrdered at hro'
      rw [hc, List.map_cons, List.pairwise_cons] at hro'
      rcases List.mem_cons.mp (by rw [hc] at hq; exact hq) with rfl | hq2
      · exact le_refl _
      · exact hro'.1 (s.timeOf q.1) (List.mem_map.mpr ⟨q, hq2, rfl⟩)
  · intro hnd hk
    refine ⟨_, LRUCache.put_eq_present s now key value hk, rfl, rfl, ?_⟩
    show (s.cache.filter (fun p => p.1 ≠ key) ++ [(key, value)]).length = s.cache.length
    rw [List.length_append]
    have := keyFilter_length s.cache key hnd hk
    simp only [List.length_singleton]
    omega

/-- C2 (witness): an empty run respects the capacity bound, and a put of
a fresh key into a full two-entry cache evicts exactly the front entry
and counts one eviction. -/
theorem lru_capacity_eviction_c2_witness :
    ((LRUCache.runOps ([] : List (LRUCache.Op Nat))
      (LRUCache.init Nat 2 10)).cache.length ≤ 2) ∧
    ∃ s', (⟨2, 10, [("a", 1), ("b", 2)], [("a", 0), ("b", 1)], 0, 0, 0⟩ :
        LRUCache Nat).put 5 "c" 3 = some s' ∧
      s'.cache = [("b", 2), ("c", 3)] ∧ s'.evictions = 1 := by
  have h := lru_capacity_eviction_c2 2 10 ([] : List (LRUCache.Op Nat))
    (⟨2, 10, [("a", 1), ("b", 2)], [("a", 0), ("b", 1)], 0, 0, 0⟩ : LRUCache Nat)
    5 "c" 3
  refine ⟨h.1, ?_⟩
  obtain ⟨s', hput, hcache, hev, -, -, -⟩ :=
    h.2.1 (by decide) (by decide) (by decide) ("a", 1) [("b", 2)] rfl
  exact ⟨s', hput, hcache.trans rfl, by rw [hev]⟩

/-- C3: `get` of an absent key records a miss and returns not-found with
nothing else changed; `get` of a present key past its TTL removes the
entry (size decreases by one, the key is gone), records a miss and
returns not-found; `get` of a present unexpired key returns the stored
value, records a hit, moves the entry to the most-recently-used end,
stamps its access time with `now`, and leaves the size and miss counter
unchanged. -/
theorem lru_get_c3 {V : Type} (s : LRUCache V) (now : Int) (key : String) :
    (s.cache.find? (fun p => p.1 = key) = none →
      s.get now key = (none, { s with misses := s.misses + 1 })) ∧
    (∀ entry, s.cache.find? (fun p => p.1 = key) = some entry →
      (now - s.timeOf key > s.ttl →
        s.get now key = (none, { s.remove key with misses := s.misses + 1 }) ∧
        ((s.cache.map Prod.fst).Nodup →
          (s.get now key).2.cache.length + 1 = s.cache.length) ∧
        (s.get now key).2.misses = s.misses + 1 ∧
        (s.get now key).2.hits = s.hits ∧
        key ∉ ((s.get now key).2.cache.map Prod.fst)) ∧
      (¬ now - s.timeOf key > s.ttl →
        (s.get now key).1 = some entry.2 ∧
        (s.get now key).2.cache =
          s.cache.filter (fun p => p.1 ≠ key) ++ [(key, entry.2)] ∧
        (s.get now key).2.hits = s.hits + 1 ∧
        (s.get now key).2.misses = s.misses ∧
        (s.get now key).2.timeOf key = now ∧
        ((s.cache.map Prod.fst).Nodup →
          (s.get now key).2.cache.length = s.cache.length))) := by
  refine ⟨fun hfind => LRUCache.get_eq_absent s now key hfind, ?_⟩
  intro entry hfind
  have hmem : s.cache.any (fun p => p.1 = key) = true := by
    have h1 := List.mem_of_find?_eq_some hfind
    have h2 := List.find?_some hfind
    exact List.any_eq_true.mpr ⟨entry, h1, h2⟩
  constructor
  · intro hexp
    have heq := LRUCache.get_eq_expired s now key entry hfind hexp
    rw [heq]
    refine ⟨rfl, ?_, rfl, rfl, ?_⟩
    · intro hnd
      show (s.cache.filter (fun p => p.1 ≠ key)).length + 1 = s.cache.length
      exact keyFilter_length s.cache key hnd hmem
    · show key ∉ (s.cache.filter (fun p => p.1 ≠ key)).map Prod.fst
      exact key_notin_keyFilter s.cache key
  · intro hexp
    have heq := LRUCache.get_eq_live s now key entry hfind hexp
    rw [heq]
    refine ⟨rfl, rfl, rfl, rfl, ?_, ?_⟩
    · exact timeOf_access_setKey_self _ s key now rfl
    · intro hnd
      show (s.cache.filter (fun p => p.1 ≠ key) ++ [(key, entry.2)]).length =
        s.cache.length
      rw [List.length_append]
      have := keyFilter_length s.cache key hnd hmem
      simp only [List.length_singleton]
      omega

/-- C3 (witness): on a one-entry cache, a miss, an expired hit, and a
fresh hit behave as stated. -/
theorem lru_get_c3_witness :
    ((⟨2, 10, [("a", 7)], [("a", 0)], 0, 0, 0⟩ : LRUCache Nat).get 5 "b" =
      (none, ⟨2, 10, [("a", 7)], [("a", 0)], 0, 1, 0⟩)) ∧
    ((⟨2, 10, [("a", 7)], [("a", 0)], 0, 0, 0⟩ : LRUCache Nat).get 100 "a" =
      (none, ⟨2, 10, [], [], 0, 1, 0⟩)) ∧
    (((⟨2, 10, [("a", 7)], [("a", 0)], 0, 0, 0⟩ : LRUCache Nat).get 5 "a").1 =
      some 7 ∧
     ((⟨2, 10, [("a", 7)], [("a", 0)], 0, 0, 0⟩ : LRUCache Nat).get 5 "a").2.hits = 1) := by
  have h1 := (lru_get_c3 (⟨2, 10, [("a", 7)], [("a", 0)], 0, 0, 0⟩ : LRUCache Nat)
    5 "b").1 (by decide)
  have h2 := ((lru_get_c3 (⟨2, 10, [("a", 7)], [("a", 0)], 0, 0, 0⟩ : LRUCache Nat)
    100 "a").2 ("a", 7) (by decide)).1 (by decide)
  have h3 := ((lru_get_c3 (⟨2, 10, [("a", 7)], [("a", 0)], 0, 0, 0⟩ : LRUCache Nat)
    5 "a").2 ("a", 7) (by decide)).2 (by decide)
  refine ⟨?_, ?_, h3.1, ?_⟩
  · rw [h1]
  · rw [h2.1]
    rfl
  · rw [h3.2.2.1]

/-- C6: every fuzzy match returned differs from the query term after
lower-casing, carries a similarity that is exactly the maximum of the
three metrics (sequence-alignment ratio, Jaro, normalized edit distance)
on the lower-cased pair and is at least the configured threshold, keeps
the original query term and a corpus member as matched term; and the
returned list is sorted by similarity descending with length bounded by
`max_results`. -/
theorem fuzzy_matches_c6 (similarity_threshold : ℚ) (query_term : String)
    (corpus_terms : List String) (max_results : Nat) (fm : FuzzyMatch)
    (hmem : fm ∈ find_fuzzy_matches similarity_threshold query_term corpus_terms
      max_results) :
    lowerStr fm.matched_term ≠ lowerStr query_term ∧
    fm.similarity =
      max (sequence_matcher_score (lowerStr query_term).data (lowerStr fm.matched_term).data)
        (max (jaro_similarity (lowerStr query_term).data (lowerStr fm.matched_term).data)
          (levenshtein_similarity (lowerStr query_term).data
            (lowerStr fm.matched_term).data)) ∧
    fm.similarity ≥ similarity_threshold ∧
    fm.original_term = query_term ∧
    fm.matched_term ∈ corpus_terms ∧
    ((find_fuzzy_matches similarity_threshold query_term corpus_terms max_results).map
      FuzzyMatch.similarity).Pairwise (fun a b => b ≤ a) ∧
    (find_fuzzy_matches similarity_threshold query_term corpus_terms
      max_results).length ≤ max_results := by
  have hunpack : ∀ g : FuzzyMatch,
      g ∈ find_fuzzy_matches similarity_threshold query_term corpus_terms max_results →
      ∃ term ∈ corpus_terms, lowerStr query_term ≠ lowerStr term ∧
        fuzzyBest (lowerStr query_term).data (lowerStr term).data ≥
          similarity_threshold ∧
        g = ⟨query_term, term,
          fuzzyBest (lowerStr query_term).data (lowerStr term).data, "corpus"⟩ := by
    intro g hg
    unfold find_fuzzy_matches at hg
    have hg2 := List.mem_mergeSort.mp (List.take_subset _ _ hg)
    rcases List.mem_filterMap.mp hg2 with ⟨term, hterm, hf⟩
    by_cases heq : lowerStr query_term = lowerStr term
    · rw [if_pos heq] at hf
      exact absurd hf (by simp)
    · rw [if_neg heq] at hf
      by_cases hth : fuzzyBest (lowerStr query_term).data (lowerStr term).data ≥
          similarity_threshold
      · rw [if_pos hth] at hf
        exact ⟨term, hterm, heq, hth, (Option.some.injEq _ _ ▸ hf).symm⟩
      · rw [if_neg hth] at hf
        exact absurd hf (by simp)
  obtain ⟨term, hterm, hneq, hth, hfm⟩ := hunpack fm hmem
  subst hfm
  refine ⟨fun h => hneq h.symm, rfl, hth, rfl, hterm, ?_, ?_⟩
  · unfold find_fuzzy_matches
    have hsorted := @List.sorted_mergeSort FuzzyMatch
      (fun x y : FuzzyMatch => decide (y.similarity ≤ x.similarity))
      (fun a b c hab hbc => by
        simp only [decide_eq_true_eq] at hab hbc ⊢
        exact le_trans hbc hab)
      (fun a b => by
        rcases le_total b.similarity a.similarity with h | h
        · simp [h]
        · simp [h])
      (corpus_terms.filterMap (fun term =>
        let tl := lowerStr term
        if lowerStr query_term = tl then none
        else
          let best := fuzzyBest (lowerStr query_term).data tl.data
          if best ≥ similarity_threshold then
            some ⟨query_term, term, best, "corpus"⟩
          else none))
    have htake := hsorted.sublist (List.take_sublist max_results _)
    rw [List.pairwise_map]
    exact htake.imp (fun h => by simpa using h)
  · unfold find_fuzzy_matches
    rw [List.length_take]
    exact min_le_left _ _

/-- C6 (witness): on corpus `["cot"]` with threshold 1/2, the query
`"cat"` yields the match `"cot"` with similarity 7/9, which satisfies the
stated properties. -/
theorem fuzzy_matches_c6_witness :
    lowerStr "cot" ≠ lowerStr "cat" ∧
    ((7 : ℚ)/9) ≥ (1/2 : ℚ) ∧
    (find_fuzzy_matches (1/2) "cat" ["cot"] 10).length ≤ 10 := by
  have h := fuzzy_matches_c6 (1/2) "cat" ["cot"] 10
    ⟨"cat", "cot", (7 : ℚ)/9, "corpus"⟩ (by with_unfolding_all decide)
  exact ⟨h.1, h.2.2.1, h.2.2.2.2.2.2⟩

/-! ### Jaro refinement lemmas (C7) -/

/-- Unrolling one step of a fold over `range`. -/
theorem foldl_range_succ {α : Type} (f : α → Nat → α) (init : α) (n : Nat) :
    (List.range (n + 1)).foldl f init = f ((List.range n).foldl f init) n := by
  rw [List.range_succ, List.foldl_append]
  rfl

/-- `find?` respects pointwise equal predicates on the list's members. -/
theorem find?_congr_mem {α : Type} (l : List α) (p q : α → Bool)
    (h : ∀ a ∈ l, p a = q a) : l.find? p = l.find? q := by
  induction l with
  | nil => rfl
  | cons hd tl ih =>
    by_cases hh : p hd = true
    · rw [List.find?_cons_of_pos _ hh,
        List.find?_cons_of_pos _ (by rw [← h hd (List.mem_cons_self _ _)]; exact hh)]
    · rw [List.find?_cons_of_neg _ hh,
        List.find?_cons_of_neg _ (by rw [← h hd (List.mem_cons_self _ _)]; exact hh),
        ih (fun a ha => h a (List.mem_cons_of_mem _ ha))]

/-- `all (≠ j)` is the negation of `any (= j)`. -/
theorem all_ne_eq_not_any {α : Type} (l : List (α × Nat)) (j : Nat) :
    l.all (fun p => p.2 ≠ j) = !(l.any (fun p => p.2 = j)) := by
  induction l with
  | nil => rfl
  | cons hd tl ih =>
    rw [List.all_cons, List.any_cons, ih, Bool.not_or]
    by_cases h : hd.2 = j
    · simp [h]
    · simp [h]

/-- `==` on characters is symmetric. -/
theorem char_beq_comm (a b : Char) : (a == b) = (b == a) := by
  by_cases h : a = b
  · rw [h]
  · rw [beq_eq_false_iff_ne.mpr h, beq_eq_false_iff_ne.mpr (Ne.symm h)]

/-- A contiguous `range'` block is the window filter of `range`. -/
theorem range'_eq_filter_range (lo hi n : Nat) (hn : hi ≤ n) :
    List.range' lo (hi - lo) =
      (List.range n).filter (fun j => decide (lo ≤ j) && decide (j < hi)) := by
  refine @List.eq_of_perm_of_sorted ℕ (fun a b => a ≤ b) inferInstance _ _ ?_ ?_ ?_
  · rw [List.perm_ext_iff_of_nodup
      ((List.pairwise_lt_range' lo (hi - lo) 1).nodup)
      (((List.pairwise_lt_range n).sublist (List.filter_sublist _)).nodup)]
    intro a
    rw [List.mem_range', List.mem_filter, List.mem_range]
    constructor
    · rintro ⟨i, hi2, rfl⟩
      refine ⟨by omega, ?_⟩
      rw [Bool.and_eq_true, decide_eq_true_iff, decide_eq_true_iff]
      omega
    · rintro ⟨ha, hcond⟩
      rw [Bool.and_eq_true, decide_eq_true_iff, decide_eq_true_iff] at hcond
      exact ⟨a - lo, by omega, by omega⟩
  · exact (List.pairwise_lt_range' lo (hi - lo) 1).imp le_of_lt
  · exact ((List.pairwise_lt_range n).sublist (List.filter_sublist _)).imp le_of_lt

/-- With the bool array coinciding with "used by some pair", the source's
window scan finds the same match as the claim's greedy description. -/
theorem jaroFindJ_eq_spec (s2 : List Char) (pairs : List (Nat × Nat)) (c : Char)
    (i d : Nat)
    (harr : ∀ j, j < s2.length →
      (((List.range s2.length).map (fun j => pairs.any (fun p => p.2 = j))).getD j true) =
        pairs.any (fun p => p.2 = j)) :
    jaroFindJ s2 ((List.range s2.length).map (fun j => pairs.any (fun p => p.2 = j)))
        c (i - d) (min (i + d + 1) s2.length) =
      (List.range s2.length).find? (fun j =>
        decide (i - d ≤ j) && decide (j ≤ i + d) &&
        pairs.all (fun p => p.2 ≠ j) && (c == s2.getD j ' ')) := by
  unfold jaroFindJ
  rw [range'_eq_filter_range (i - d) (min (i + d + 1) s2.length) s2.length
    (min_le_right _ _)]
  rw [List.find?_filter]
  refine find?_congr_mem _ _ _ ?_
  intro j hj
  have hjl : j < s2.length := List.mem_range.mp hj
  rw [harr j hjl, all_ne_eq_not_any, char_beq_comm]
  by_cases h1 : i - d ≤ j
  · by_cases h2 : j ≤ i + d
    · have h3 : j < min (i + d + 1) s2.length := by omega
      simp [h1, h2, h3, Bool.and_assoc]
    · have h3 : ¬ j < min (i + d + 1) s2.length := by omega
      simp [h1, h2, h3]
  · simp [h1]

/-- An element of a `range`-indexed map, with default. -/
theorem getD_map_range {β : Type} (m : Nat) (f : Nat → β) (j : Nat) (hj : j < m)
    (dflt : β) : ((List.range m).map f).getD j dflt = f j := by
  have hjl : j < ((List.range m).map f).length := by simpa using hj
  rw [List.getD_eq_getElem _ _ hjl, List.getElem_map]
  congr 1
  exact List.getElem_range _ _

/-- `maskChars` distributes over append. -/
theorem maskChars_append (l₁ l₂ : List (Char × Bool)) :
    maskChars (l₁ ++ l₂) = maskChars l₁ ++ maskChars l₂ := by
  unfold maskChars
  rw [List.filter_append, List.map_append]

/-- The fold invariant connecting the source's boolean-array matching to
the claim's greedy matched-pairs description: the decision list has one
entry per processed index, the boolean array marks exactly the used `s2`
positions, the marked characters of `s1` are the matched characters in
order, the number of marks equals the number of pairs, and the used `s2`
positions are distinct and in range. -/
theorem jaro_inv (s1 s2 : List Char) (d : Nat) (n : Nat) (hn : n ≤ s1.length) :
    ((List.range n).foldl (jaroMarkStep s1 s2 d)
        ([], List.replicate s2.length false)).1.length = n ∧
    ((List.range n).foldl (jaroMarkStep s1 s2 d)
        ([], List.replicate s2.length false)).2 =
      (List.range s2.length).map (fun j =>
        ((List.range n).foldl (specJaroStep s1 s2 d) []).any (fun p => p.2 = j)) ∧
    maskChars ((s1.take n).zip
        ((List.range n).foldl (jaroMarkStep s1 s2 d)
          ([], List.replicate s2.length false)).1) =
      ((List.range n).foldl (specJaroStep s1 s2 d) []).map
        (fun p => s1.getD p.1 ' ') ∧
    ((List.range n).foldl (jaroMarkStep s1 s2 d)
        ([], List.replicate s2.length false)).1.count true =
      ((List.range n).foldl (specJaroStep s1 s2 d) []).length ∧
    (((List.range n).foldl (specJaroStep s1 s2 d) []).map Prod.snd).Nodup ∧
    ∀ p ∈ (List.range n).foldl (specJaroStep s1 s2 d) [], p.2 < s2.length := by
  induction n with
  | zero =>
    refine ⟨rfl, ?_, rfl, rfl, by simp, by simp⟩
    show (List.replicate s2.length false : List Bool) =
      (List.range s2.length).map (fun j =>
        ([] : List (Nat × Nat)).any (fun p => p.2 = j))
    symm
    rw [List.eq_replicate_iff]
    refine ⟨by simp, ?_⟩
    intro b hb
    rcases List.mem_map.mp hb with ⟨j, -, rfl⟩
    rfl
  | succ n ih =>
    have hn' : n ≤ s1.length := Nat.le_of_succ_le hn
    have hnlt : n < s1.length := hn
    obtain ⟨ih1, ih2, ih3, ih4, ih5, ih6⟩ := ih hn'
    rw [foldl_range_succ, foldl_range_succ]
    set A := (List.range n).foldl (jaroMarkStep s1 s2 d)
      ([], List.replicate s2.length false) with hA
    set P := (List.range n).foldl (specJaroStep s1 s2 d) [] with hP
    have hstep : jaroMarkStep s1 s2 d A n =
        match (List.range s2.length).find? (fun j =>
            decide (n - d ≤ j) && decide (j ≤ n + d) &&
            P.all (fun p => p.2 ≠ j) && (s1.getD n ' ' == s2.getD j ' ')) with
        | some j => (A.1 ++ [true], A.2.set j true)
        | none => (A.1 ++ [false], A.2) := by
      unfold jaroMarkStep
      rw [ih2, jaroFindJ_eq_spec s2 P (s1.getD n ' ') n d
        (fun j hj => getD_map_range s2.length _ j hj true)]
    have htake : s1.take (n + 1) = s1.take n ++ [s1.getD n ' '] := by
      rw [List.take_succ, List.getElem?_eq_getElem hnlt]
      rw [List.getD_eq_getElem _ _ hnlt]
      rfl
    have hlen_take : (s1.take n).length = A.1.length := by
      rw [List.length_take, ih1]
      omega
    cases hf : (List.range s2.length).find? (fun j =>
        decide (n - d ≤ j) && decide (j ≤ n + d) &&
        P.all (fun p => p.2 ≠ j) && (s1.getD n ' ' == s2.getD j ' ')) with
    | none =>
      rw [hstep, hf]
      show (A.1 ++ [false]).length = n + 1 ∧
        A.2 = (List.range s2.length).map (fun j =>
          (specJaroStep s1 s2 d P n).any (fun p => p.2 = j)) ∧ _
      have hPs : specJaroStep s1 s2 d P n = P := by
        unfold specJaroStep
        rw [hf]
      rw [hPs]
      refine ⟨by rw [List.length_append, ih1]; rfl, ih2, ?_, ?_, ih5, ih6⟩
      · rw [htake, List.zip_append hlen_take, maskChars_append]
        have : maskChars ([s1.getD n ' '].zip [false]) = [] := rfl
        rw [this, List.append_nil]
        exact ih3
      · rw [List.count_append, ih4]
        simp
    | some j =>
      have hpred := List.find?_some hf
      have hjl : j < s2.length := List.mem_range.mp (List.mem_of_find?_eq_some hf)
      rw [Bool.and_eq_true, Bool.and_eq_true, Bool.and_eq_true] at hpred
      obtain ⟨⟨⟨hw1, hw2⟩, hall⟩, hchar⟩ := hpred
      have hjfresh : j ∉ P.map Prod.snd := by
        intro hjm
        rcases List.mem_map.mp hjm with ⟨p, hp, hpj⟩
        have := List.all_eq_true.mp hall p hp
        rw [decide_eq_true_iff] at this
        exact this hpj
      rw [hstep, hf]
      show (A.1 ++ [true]).length = n + 1 ∧
        A.2.set j true = (List.range s2.length).map (fun j' =>
          (specJaroStep s1 s2 d P n).any (fun p => p.2 = j')) ∧ _
      have hPs : specJaroStep s1 s2 d P n = P ++ [(n, j)] := by
        unfold specJaroStep
        rw [hf]
      rw [hPs]
      refine ⟨by rw [List.length_append, ih1]; rfl, ?_, ?_, ?_, ?_, ?_⟩
      · rw [ih2]
        refine List.ext_getElem (by simp) ?_
        intro k h1k h2k
        have hkl : k < s2.length := by simpa using h2k
        rw [List.getElem_set]
        rw [List.getElem_map, List.getElem_range, List.getElem_map, List.getElem_range]
        rw [List.any_append]
        by_cases hjk : j = k
        · rw [if_pos hjk]
          have : ([(n, j)].any fun p => p.2 = k) = true := by
            simp [hjk]
          rw [this, Bool.or_true]
        · rw [if_neg hjk]
          have : ([(n, j)].any fun p => p.2 = k) = false := by
            simp [hjk]
          rw [this, Bool.or_false]
      · rw [htake, List.zip_append hlen_take, maskChars_append]
        have : maskChars ([s1.getD n ' '].zip [true]) = [s1.getD n ' '] := rfl
        rw [this, ih3, List.map_append]
        rfl
      · rw [List.count_append, ih4, List.length_append]
        simp
      · rw [List.map_append, List.nodup_append]
        refine ⟨ih5, by simp, ?_⟩
        intro a ha hb
        have hab : a = j := by simpa using hb
        rw [hab] at ha
        exact hjfresh ha
      · intro p hp
        rcases List.mem_append.mp hp with hp1 | hp1
        · exact ih6 p hp1
        · rcases List.mem_singleton.mp hp1 with rfl
          exact hjl

/-- Advancing `k` past unmatched positions of `s2` peels one marked entry
off both the drop-list and the masked characters. -/
theorem dropWhile_marked (l2 : List (Char × Bool))
    (h : 0 < (l2.filter (fun p => p.2)).length) :
    ∃ c2 r2, l2.dropWhile (fun p => !p.2) = (c2, true) :: r2 ∧
      maskChars l2 = c2 :: maskChars r2 ∧
      (l2.filter (fun p => p.2)).length = (r2.filter (fun p => p.2)).length + 1 := by
  induction l2 with
  | nil => simp at h
  | cons hd tl ih =>
    rcases hd with ⟨x, b⟩
    cases b with
    | true =>
      refine ⟨x, tl, ?_, ?_, ?_⟩
      · rw [List.dropWhile_cons]
        simp
      · simp [maskChars, List.filter_cons]
      · simp [List.filter_cons]
    | false =>
      have h' : 0 < (tl.filter (fun p => p.2)).length := by
        simpa [List.filter_cons] using h
      obtain ⟨c2, r2, h1, h2, h3⟩ := ih h'
      refine ⟨c2, r2, ?_, ?_, ?_⟩
      · rw [List.dropWhile_cons]
        simpa using h1
      · rw [show maskChars ((x, false) :: tl) = maskChars tl by
          simp [maskChars, List.filter_cons]]
        exact h2
      · rw [show (((x, false) :: tl).filter (fun p => p.2)).length =
          (tl.filter (fun p => p.2)).length by simp [List.filter_cons]]
        exact h3

/-- The source's transposition walk equals the number of differing
positions when the marked characters of both strings are aligned in
order. -/
theorem transWalk_eq (l1 : List (Char × Bool)) : ∀ l2 : List (Char × Bool),
    (l1.filter (fun p => p.2)).length ≤ (l2.filter (fun p => p.2)).length →
    transWalk l1 l2 =
      (((maskChars l1).zip (maskChars l2)).filter (fun p => p.1 ≠ p.2)).length := by
  induction l1 with
  | nil =>
    intro l2 h
    rfl
  | cons hd r1 ih =>
    rcases hd with ⟨c, b⟩
    cases b with
    | false =>
      intro l2 h
      rw [show transWalk ((c, false) :: r1) l2 = transWalk r1 l2 from rfl]
      rw [show maskChars ((c, false) :: r1) = maskChars r1 by
        simp [maskChars, List.filter_cons]]
      refine ih l2 ?_
      rw [show (((c, false) :: r1).filter (fun p => p.2)).length =
        (r1.filter (fun p => p.2)).length by simp [List.filter_cons]] at h
      exact h
    | true =>
      intro l2 h
      have hlen1 : (((c, true) :: r1).filter (fun p => p.2)).length =
          (r1.filter (fun p => p.2)).length + 1 := by
        simp [List.filter_cons]
      have h0 : 0 < (l2.filter (fun p => p.2)).length := by
        rw [hlen1] at h
        omega
      obtain ⟨c2, r2, h1, h2, h3⟩ := dropWhile_marked l2 h0
      have hwalk : transWalk ((c, true) :: r1) l2 =
          (if c = c2 then 0 else 1) + transWalk r1 r2 := by
        rw [show transWalk ((c, true) :: r1) l2 =
          (match l2.dropWhile (fun p => !p.2) with
            | [] => 0
            | (c2, _) :: r2 => (if c = c2 then 0 else 1) + transWalk r1 r2) from rfl]
        rw [h1]
      rw [hwalk, h2]
      rw [show maskChars ((c, true) :: r1) = c :: maskChars r1 by
        simp [maskChars, List.filter_cons]]
      rw [List.zip_cons_cons, List.filter_cons]
      have hrec := ih r2 (by rw [hlen1] at h; omega)
      by_cases hcc : c = c2
      · rw [if_pos hcc]
        rw [show (decide ¬((c, c2).1 = (c, c2).2)) = false by simp [hcc]]
        rw [hrec]
        simp
      · rw [if_neg hcc]
        rw [show (decide ¬((c, c2).1 = (c, c2).2)) = true by simp [hcc]]
        rw [hrec]
        simp [Nat.add_comm]

/-- Masking a string against a `range`-indexed boolean map selects the
characters at the accepted indices, in order. -/
theorem maskChars_zip_map_range (s2 : List Char) : ∀ Pb : Nat → Bool,
    maskChars (s2.zip ((List.range s2.length).map Pb)) =
      ((List.range s2.length).filter Pb).map (fun j => s2.getD j ' ') := by
  induction s2 with
  | nil => intro Pb; rfl
  | cons c cs ih =>
    intro Pb
    rw [show (c :: cs).length = cs.length + 1 from rfl, List.range_succ_eq_map]
    rw [List.map_cons, List.zip_cons_cons]
    rw [show maskChars ((c, Pb 0) :: cs.zip ((List.range cs.length).map Nat.succ |>.map Pb)) =
      (if Pb 0 then [c] else []) ++
        maskChars (cs.zip ((List.range cs.length).map Nat.succ |>.map Pb)) by
      by_cases hp : Pb 0 = true
      · simp [maskChars, List.filter_cons, hp]
      · simp [maskChars, List.filter_cons, hp]]
    rw [List.map_map, ih (Pb ∘ Nat.succ), List.filter_cons]
    by_cases hp : Pb 0 = true
    · rw [if_pos hp, if_pos (by simpa using hp)]
      simp [List.filter_map, List.map_map, Function.comp_def, List.getD_cons_succ]
    · rw [if_neg hp, if_neg (by simpa using hp)]
      simp [List.filter_map, List.map_map, Function.comp_def, List.getD_cons_succ]

/-- `any` over a mapped list tests the composed predicate. -/
theorem any_map_general {α β : Type} (f : α → β) (l : List α) (p : β → Bool) :
    (l.map f).any p = l.any (fun x => p (f x)) := by
  induction l with
  | nil => rfl
  | cons hd tl ih => rw [List.map_cons, List.any_cons, List.any_cons, ih]

/-- A nodup list of indices below `n`, sorted by merge sort, is the
ascending filter of `range n`. -/
theorem mergeSort_eq_filter_range (n : Nat) (js : List Nat) (hnd : js.Nodup)
    (hlt : ∀ j ∈ js, j < n) :
    js.mergeSort (fun x y => x ≤ y) =
      (List.range n).filter (fun j => js.any (fun j2 => j2 = j)) := by
  refine @List.eq_of_perm_of_sorted ℕ (fun a b => a ≤ b) inferInstance _ _ ?_ ?_ ?_
  · refine (List.mergeSort_perm js _).trans ?_
    rw [List.perm_ext_iff_of_nodup hnd
      (((List.pairwise_lt_range n).sublist (List.filter_sublist _)).nodup)]
    intro a
    rw [List.mem_filter, List.mem_range]
    constructor
    · intro ha
      exact ⟨hlt a ha, List.any_eq_true.mpr ⟨a, ha, by simp⟩⟩
    · rintro ⟨-, hany⟩
      rcases List.any_eq_true.mp hany with ⟨j2, hj2, hj2eq⟩
      rw [decide_eq_true_iff] at hj2eq
      exact hj2eq ▸ hj2
  · have hs := @List.sorted_mergeSort ℕ (fun x y : ℕ => decide (x ≤ y))
      (fun a b c hab hbc => by
        simp only [decide_eq_true_eq] at hab hbc ⊢
        omega)
      (fun a b : ℕ => by
        rcases Nat.le_total a b with h | h
        · simp [h]
        · simp [h])
      js
    exact hs.imp (fun h => by simpa using h)
  · exact ((List.pairwise_lt_range n).sublist (List.filter_sublist _)).imp le_of_lt

/-- C7: the source's Jaro similarity is exactly the standard Jaro value
described by the claim — greedy matching inside the window
`max(0, floor(max(len1,len2)/2) - 1)`, `1.0` for two empty strings,
`0.0` when exactly one is empty or no characters match, and otherwise
`(m/len1 + m/len2 + (m - t)/m)/3` where `m` is the number of matched
pairs and `t` the transposition count obtained by aligning the matched
characters in original order. -/
theorem jaro_spec_c7 (s1 s2 : List Char) :
    jaro_similarity s1 s2 = spec_jaro s1 s2 := by
  unfold jaro_similarity spec_jaro
  by_cases h0 : s1.length = 0 ∧ s2.length = 0
  · rw [if_pos h0, if_pos h0]
  · rw [if_neg h0, if_neg h0]
    by_cases h1 : s1.length = 0 ∨ s2.length = 0
    · rw [if_pos h1, if_pos h1]
    · rw [if_neg h1, if_neg h1]
      have hd : max 0 (max s1.length s2.length / 2 - 1) =
          jaroWindow s1.length s2.length := Nat.zero_max _
      rw [hd]
      set d := jaroWindow s1.length s2.length with hdd
      obtain ⟨i1, i2, i3, i4, i5, i6⟩ := jaro_inv s1 s2 d s1.length le_rfl
      show (let ms := jaroMarks s1 s2 d
        let m := ms.1.count true
        if m = 0 then (0 : ℚ) else
          ((m : ℚ) / s1.length + (m : ℚ) / s2.length +
            ((m : ℚ) - (transWalk (s1.zip ms.1) (s2.zip ms.2) : ℚ) / 2) / m) / 3) =
        (let pairs := specJaroPairs s1 s2 d
        let m := pairs.length
        if m = 0 then (0 : ℚ) else
          ((m : ℚ) / s1.length + (m : ℚ) / s2.length +
            ((m : ℚ) - specJaroT s1 s2 pairs) / m) / 3)
      have hMdef : jaroMarks s1 s2 d = (List.range s1.length).foldl
          (jaroMarkStep s1 s2 d) ([], List.replicate s2.length false) := rfl
      have hPdef : specJaroPairs s1 s2 d =
          (List.range s1.length).foldl (specJaroStep s1 s2 d) [] := rfl
      rw [← hMdef] at i1 i2 i3 i4
      rw [← hPdef] at i2 i3 i4 i5 i6
      set M := jaroMarks s1 s2 d with hM
      set P := specJaroPairs s1 s2 d with hP
      dsimp only
      rw [i4]
      by_cases hm0 : P.length = 0
      · rw [if_pos hm0, if_pos hm0]
      · rw [if_neg hm0, if_neg hm0]
        rw [List.take_length] at i3
        have hmask1 : maskChars (s1.zip M.1) = P.map (fun p => s1.getD p.1 ' ') := i3
        have hjs : ∀ j ∈ P.map Prod.snd, j < s2.length := by
          intro j hj
          rcases List.mem_map.mp hj with ⟨p, hp, rfl⟩
          exact i6 p hp
        have hpred : (fun j => (P.map Prod.snd).any (fun j2 => j2 = j)) =
            (fun j => P.any (fun p => p.2 = j)) := by
          funext j
          rw [any_map_general]
        have hmask2 : maskChars (s2.zip M.2) =
            ((P.map Prod.snd).mergeSort (fun x y => x ≤ y)).map
              (fun j => s2.getD j ' ') := by
          rw [i2, maskChars_zip_map_range s2 (fun j => P.any (fun p => p.2 = j)),
            mergeSort_eq_filter_range s2.length (P.map Prod.snd) i5 hjs, hpred]
        have hlen1 : ((s1.zip M.1).filter (fun p => p.2)).length = P.length := by
          have : (maskChars (s1.zip M.1)).length = P.length := by
            rw [hmask1, List.length_map]
          rw [← this]
          unfold maskChars
          rw [List.length_map]
        have hlen2 : ((s2.zip M.2).filter (fun p => p.2)).length = P.length := by
          have : (maskChars (s2.zip M.2)).length = P.length := by
            rw [hmask2, List.length_map, List.length_mergeSort, List.length_map]
          rw [← this]
          unfold maskChars
          rw [List.length_map]
        have ht : transWalk (s1.zip M.1) (s2.zip M.2) =
            (((P.map (fun p => s1.getD p.1 ' ')).zip
              (((P.map Prod.snd).mergeSort (fun x y => x ≤ y)).map
                (fun j => s2.getD j ' '))).filter (fun p => p.1 ≠ p.2)).length := by
          rw [transWalk_eq (s1.zip M.1) (s2.zip M.2) (by rw [hlen1, hlen2]),
            hmask1, hmask2]
        rw [show specJaroT s1 s2 P =
            ((((P.map (fun p => s1.getD p.1 ' ')).zip
              (((P.map Prod.snd).mergeSort (fun x y => x ≤ y)).map
                (fun j => s2.getD j ' '))).filter (fun p => p.1 ≠ p.2)).length : ℚ) / 2
          from rfl]
        rw [ht]

end Spec2Proof
